import Mathlib

/-!
Verification development for the calendar/event-store component of the
telegram topic-scheduler repository (`src/calendar_manager.py`).

The Python module is shallowly embedded:
* `Date` mirrors `datetime.date` (proleptic Gregorian calendar; Python keeps
  `1 ≤ year ≤ 9999`, which we track through `Date.Valid` plus explicit
  year bounds where string formatting is involved);
* `parseDate` mirrors `datetime.strptime(s, '%Y-%m-%d').date()` — the
  CPython `_strptime` regex for `%Y-%m-%d` is
  `(\d\d\d\d)-(1[0-2]|0[1-9]|[1-9])-(3[01]|[12]\d|0[1-9]|[1-9])` anchored at
  both ends, followed by the `date` constructor's range validation;
* `isoformat` mirrors `date.isoformat()` (zero-padded `YYYY-MM-DD`);
* the `CalendarManager` state is an association list in key-insertion order
  (Python's `OrderedDict`), and every operation returns its result together
  with the new state and the list of snapshots written to the database file.
-/

/-- A calendar date, mirroring `datetime.date` fields. -/
structure Date where
  year : Nat
  month : Nat
  day : Nat
deriving DecidableEq

/-- Gregorian leap-year test, as in `calendar.isleap` / `datetime`. -/
def isLeap (y : Nat) : Bool :=
  (y % 4 == 0 && y % 100 != 0) || (y % 400 == 0)

/-- Month lengths for a (non-)leap year (`datetime._days_in_month`). -/
def monthDays (l : Bool) (m : Nat) : Nat :=
  match m with
  | 1 => 31
  | 2 => if l then 29 else 28
  | 3 => 31
  | 4 => 30
  | 5 => 31
  | 6 => 30
  | 7 => 31
  | 8 => 31
  | 9 => 30
  | 10 => 31
  | 11 => 30
  | 12 => 31
  | _ => 0

/-- Days in month `m` of year `y`. -/
def daysInMonth (y m : Nat) : Nat := monthDays (isLeap y) m

/-- A structurally valid date (the invariant `datetime.date` maintains,
except for the upper year bound which we carry separately). -/
def Date.Valid (d : Date) : Prop :=
  1 ≤ d.year ∧ 1 ≤ d.month ∧ d.month ≤ 12 ∧ 1 ≤ d.day ∧ d.day ≤ daysInMonth d.year d.month

instance (d : Date) : Decidable d.Valid := by
  unfold Date.Valid; infer_instance

/-- Chronological (lexicographic) strict order on dates; `datetime.date`
comparison is chronological. -/
def Date.lt (a b : Date) : Prop :=
  a.year < b.year ∨ (a.year = b.year ∧ (a.month < b.month ∨ (a.month = b.month ∧ a.day < b.day)))

/-- Chronological order on dates (`<=` on `datetime.date`). -/
def Date.le (a b : Date) : Prop := Date.lt a b ∨ a = b

instance (a b : Date) : Decidable (Date.lt a b) := by
  unfold Date.lt; infer_instance

instance (a b : Date) : Decidable (Date.le a b) := by
  unfold Date.le; infer_instance

theorem Date.lt_irrefl (a : Date) : ¬ Date.lt a a := by
  cases a; simp [Date.lt]

theorem Date.le_refl (a : Date) : Date.le a a := Or.inr rfl

theorem Date.le_trans {a b c : Date} (h1 : Date.le a b) (h2 : Date.le b c) : Date.le a c := by
  cases a; cases b; cases c
  simp only [Date.le, Date.lt, Date.mk.injEq] at *
  omega

theorem Date.le_total (a b : Date) : Date.le a b ∨ Date.le b a := by
  cases a; cases b
  simp only [Date.le, Date.lt, Date.mk.injEq]
  omega

theorem Date.not_lt_iff (a b : Date) : ¬ Date.lt a b ↔ Date.le b a := by
  cases a; cases b
  simp only [Date.le, Date.lt, Date.mk.injEq]
  omega

theorem Date.lt_of_le_of_ne {a b : Date} (h : Date.le a b) (hne : a ≠ b) : Date.lt a b := by
  cases h with
  | inl h => exact h
  | inr h => exact absurd h hne

theorem Date.lt_iff_le_and_ne {a b : Date} : Date.lt a b ↔ Date.le a b ∧ a ≠ b := by
  cases a; cases b
  simp only [Date.le, Date.lt, Date.mk.injEq, ne_eq]
  omega

theorem Date.year_le_of_le {a b : Date} (h : Date.le a b) : a.year ≤ b.year := by
  cases h with
  | inl h => unfold Date.lt at h; omega
  | inr h => subst h; exact Nat.le_refl _

/-- Successor day: `d + timedelta(days=1)` for valid dates. -/
def nextDate (d : Date) : Date :=
  if d.day < daysInMonth d.year d.month then ⟨d.year, d.month, d.day + 1⟩
  else if d.month < 12 then ⟨d.year, d.month + 1, 1⟩
  else ⟨d.year + 1, 1, 1⟩

/-- `d + timedelta(days=n)` for valid dates, as iterated successor.
(Defined by well-founded recursion so that it only unfolds through its
equations, one day at a time.) -/
def addDays : Nat → Date → Date
  | 0, d => d
  | n + 1, d => addDays n (nextDate d)
termination_by n _ => n

theorem addDays_zero (d : Date) : addDays 0 d = d := by
  simp [addDays]

theorem addDays_succ (n : Nat) (d : Date) : addDays (n + 1) d = addDays n (nextDate d) := by
  simp [addDays]

theorem addDays_addDays (a b : Nat) (d : Date) :
    addDays a (addDays b d) = addDays (b + a) d := by
  induction b generalizing d with
  | zero => rw [addDays_zero, Nat.zero_add]
  | succ k ih =>
    rw [addDays_succ, ih (nextDate d)]
    have he : k + 1 + a = (k + a) + 1 := by omega
    rw [he, addDays_succ]

/-- Number of leap years among `1, ..., y-1` (as in `datetime._days_before_year`). -/
def leapsBefore (y : Nat) : Nat := (y - 1) / 4 + (y - 1) / 400 - (y - 1) / 100

/-- Days in year `y` before the first of month `m`
(`datetime._days_before_month`). -/
def daysBeforeMonth (l : Bool) (m : Nat) : Nat :=
  (match m with
   | 1 => 0
   | 2 => 31
   | 3 => 59
   | 4 => 90
   | 5 => 120
   | 6 => 151
   | 7 => 181
   | 8 => 212
   | 9 => 243
   | 10 => 273
   | 11 => 304
   | 12 => 334
   | _ => 0)
  + (if 2 < m ∧ l = true then 1 else 0)

/-- Proleptic-Gregorian ordinal of a date (`datetime.date.toordinal`). -/
def toOrd (d : Date) : Nat :=
  365 * (d.year - 1) + leapsBefore d.year + daysBeforeMonth (isLeap d.year) d.month + d.day

/-- The character of a decimal digit `k < 10`. -/
def digitChar (k : Nat) : Char := Char.ofNat (48 + k)

/-- The `-` separator of ISO dates. -/
def dashChar : Char := Char.ofNat 45

/-- Two-digit zero-padded rendering (`%02d`, used for month and day). -/
def pad2 (n : Nat) : List Char := [digitChar (n / 10 % 10), digitChar (n % 10)]

/-- Four-digit zero-padded rendering (`%04d`, used for the year). -/
def pad4 (n : Nat) : List Char :=
  [digitChar (n / 1000 % 10), digitChar (n / 100 % 10), digitChar (n / 10 % 10),
   digitChar (n % 10)]

/-- `date.isoformat()`: the `YYYY-MM-DD` rendering of a date. -/
def isoformat (d : Date) : String :=
  String.mk (pad4 d.year ++ dashChar :: (pad2 d.month ++ dashChar :: pad2 d.day))

/-- Value of a decimal digit character, if it is one. -/
def digitVal (c : Char) : Option Nat :=
  if 48 ≤ c.toNat ∧ c.toNat ≤ 57 then some (c.toNat - 48) else none

/-- `%Y` in CPython `_strptime`: exactly four decimal digits. -/
def pYear4 : List Char → Option (Nat × List Char)
  | c1 :: c2 :: c3 :: c4 :: rest =>
    match digitVal c1, digitVal c2, digitVal c3, digitVal c4 with
    | some a, some b, some c, some d => some (1000 * a + 100 * b + 10 * c + d, rest)
    | _, _, _, _ => none
  | _ => none

/-- A literal `-`, as in the `%Y-%m-%d` format string. -/
def pDash : List Char → Option (List Char)
  | c :: rest => if c.toNat = 45 then some rest else none
  | [] => none

/-- Two-digit alternatives of `%m`, the regex `1[0-2]|0[1-9]`. -/
def month2ok (a b : Nat) : Prop := (a = 1 ∧ b ≤ 2) ∨ (a = 0 ∧ 1 ≤ b)

instance (a b : Nat) : Decidable (month2ok a b) := by
  unfold month2ok; infer_instance

/-- Two-digit alternatives of `%d`, the regex `3[01]|[12][0-9]|0[1-9]`. -/
def day2ok (a b : Nat) : Prop := (a = 3 ∧ b ≤ 1) ∨ a = 1 ∨ a = 2 ∨ (a = 0 ∧ 1 ≤ b)

instance (a b : Nat) : Decidable (day2ok a b) := by
  unfold day2ok; infer_instance

/-- A one- or two-digit field (`%m` / `%d`): the two-digit alternatives are
tried first; the one-digit alternative `[1-9]` consumes a single digit.  When
a two-digit alternative matches, regex backtracking into the one-digit
alternative can never rescue a later failure, because the character after the
single digit would be a digit where the format requires `-` or the end. -/
def pTwoOrOne (ok2 : Nat → Nat → Prop) [∀ a b : Nat, Decidable (ok2 a b)] :
    List Char → Option (Nat × List Char)
  | c1 :: c2 :: rest =>
    match digitVal c1, digitVal c2 with
    | some a, some b =>
      if ok2 a b then some (10 * a + b, rest)
      else if 1 ≤ a then some (a, c2 :: rest) else none
    | some a, none => if 1 ≤ a then some (a, c2 :: rest) else none
    | none, _ => none
  | [c1] =>
    match digitVal c1 with
    | some a => if 1 ≤ a then some (a, []) else none
    | none => none
  | [] => none

/-- The anchored regex for `%Y-%m-%d`: year, dash, month, dash, day,
end of input. -/
def parseYMD (cs : List Char) : Option (Nat × Nat × Nat) :=
  match pYear4 cs with
  | none => none
  | some (y, r1) =>
    match pDash r1 with
    | none => none
    | some r2 =>
      match pTwoOrOne month2ok r2 with
      | none => none
      | some (m, r3) =>
        match pDash r3 with
        | none => none
        | some r4 =>
          match pTwoOrOne day2ok r4 with
          | none => none
          | some (dy, r5) => if r5 = [] then some (y, m, dy) else none

/-- `datetime.strptime(s, '%Y-%m-%d').date()`: the `_strptime` regex match
followed by the `date` constructor's range validation.  Any failure raises
`ValueError` in Python, which every caller catches; here it is `none`. -/
def parseDate (s : String) : Option Date :=
  match parseYMD s.data with
  | none => none
  | some (y, m, dy) =>
    if 1 ≤ y ∧ 1 ≤ m ∧ m ≤ 12 ∧ 1 ≤ dy ∧ dy ≤ daysInMonth y m then some ⟨y, m, dy⟩
    else none

theorem digitVal_digitChar : ∀ k, k < 10 → digitVal (digitChar k) = some k := by decide

theorem digitVal_le {c : Char} {a : Nat} (h : digitVal c = some a) : a ≤ 9 := by
  unfold digitVal at h
  split at h
  · cases h; omega
  · cases h

theorem pYear4_pad4 (y : Nat) (hy : y ≤ 9999) (rest : List Char) :
    pYear4 (pad4 y ++ rest) = some (y, rest) := by
  have e1 := digitVal_digitChar (y / 1000 % 10) (Nat.mod_lt _ (by omega))
  have e2 := digitVal_digitChar (y / 100 % 10) (Nat.mod_lt _ (by omega))
  have e3 := digitVal_digitChar (y / 10 % 10) (Nat.mod_lt _ (by omega))
  have e4 := digitVal_digitChar (y % 10) (Nat.mod_lt _ (by omega))
  simp only [pad4, List.cons_append, List.nil_append, pYear4, e1, e2, e3, e4]
  have hval : 1000 * (y / 1000 % 10) + 100 * (y / 100 % 10) + 10 * (y / 10 % 10) + y % 10 = y := by
    omega
  rw [hval]

theorem pDash_cons (rest : List Char) : pDash (dashChar :: rest) = some rest := by
  simp only [pDash]
  rw [if_pos]
  decide

theorem pTwoOrOne_pad2_month (m : Nat) (h1 : 1 ≤ m) (h2 : m ≤ 12) (rest : List Char) :
    pTwoOrOne month2ok (pad2 m ++ rest) = some (m, rest) := by
  have hb : ∀ n, n < 13 → 1 ≤ n →
      month2ok (n / 10 % 10) (n % 10) ∧ 10 * (n / 10 % 10) + n % 10 = n := by decide
  obtain ⟨hok, hval⟩ := hb m (by omega) h1
  have e1 := digitVal_digitChar (m / 10 % 10) (Nat.mod_lt _ (by omega))
  have e2 := digitVal_digitChar (m % 10) (Nat.mod_lt _ (by omega))
  simp only [pad2, List.cons_append, List.nil_append, pTwoOrOne, e1, e2, if_pos hok, hval]

theorem pTwoOrOne_pad2_day (dy : Nat) (h1 : 1 ≤ dy) (h2 : dy ≤ 31) :
    pTwoOrOne day2ok (pad2 dy) = some (dy, []) := by
  have hb : ∀ n, n < 32 → 1 ≤ n →
      day2ok (n / 10 % 10) (n % 10) ∧ 10 * (n / 10 % 10) + n % 10 = n := by decide
  obtain ⟨hok, hval⟩ := hb dy (by omega) h1
  have e1 := digitVal_digitChar (dy / 10 % 10) (Nat.mod_lt _ (by omega))
  have e2 := digitVal_digitChar (dy % 10) (Nat.mod_lt _ (by omega))
  simp only [pad2, pTwoOrOne, e1, e2, if_pos hok, hval]

theorem daysInMonth_le_31 (y m : Nat) (h1 : 1 ≤ m) (h2 : m ≤ 12) : daysInMonth y m ≤ 31 := by
  have hb : ∀ l : Bool, ∀ n, n < 13 → monthDays l n ≤ 31 := by decide
  exact hb (isLeap y) m (by omega)

/-- Round trip: formatting a valid in-range date and re-parsing it yields the
same date.  This is why the scheduler can feed `isoformat` strings back to
`add_event`. -/
theorem parseDate_isoformat (d : Date) (hv : d.Valid) (hy : d.year ≤ 9999) :
    parseDate (isoformat d) = some d := by
  obtain ⟨h1, h2, h3, h4, h5⟩ := hv
  have hd31 : d.day ≤ 31 := Nat.le_trans h5 (daysInMonth_le_31 d.year d.month h2 h3)
  simp only [parseDate, isoformat, parseYMD, pYear4_pad4 d.year hy, pDash_cons,
    pTwoOrOne_pad2_month d.month h2 h3, pTwoOrOne_pad2_day d.day h4 hd31,
    if_pos (rfl : ([] : List Char) = [])]
  show (if 1 ≤ d.year ∧ 1 ≤ d.month ∧ d.month ≤ 12 ∧ 1 ≤ d.day ∧
      d.day ≤ daysInMonth d.year d.month
      then some (⟨d.year, d.month, d.day⟩ : Date) else none) = some d
  rw [if_pos ⟨h1, h2, h3, h4, h5⟩]

theorem pYear4_le {cs : List Char} {y : Nat} {r : List Char} (h : pYear4 cs = some (y, r)) :
    y ≤ 9999 := by
  unfold pYear4 at h
  split at h
  · rename_i c1 c2 c3 c4 rest
    split at h
    · rename_i a b c e ha hb hc he
      have := digitVal_le ha
      have := digitVal_le hb
      have := digitVal_le hc
      have := digitVal_le he
      cases h
      omega
    · cases h
  · cases h

theorem parseYMD_year_le {cs : List Char} {y m dy : Nat}
    (h : parseYMD cs = some (y, m, dy)) : y ≤ 9999 := by
  rcases hy : pYear4 cs with _ | ⟨y', r1⟩
  · simp [parseYMD, hy] at h
  · have hle := pYear4_le hy
    rcases hd1 : pDash r1 with _ | r2
    · simp [parseYMD, hy, hd1] at h
    · rcases hm : pTwoOrOne month2ok r2 with _ | ⟨m', r3⟩
      · simp [parseYMD, hy, hd1, hm] at h
      · rcases hd2 : pDash r3 with _ | r4
        · simp [parseYMD, hy, hd1, hm, hd2] at h
        · rcases hdy : pTwoOrOne day2ok r4 with _ | ⟨dy', r5⟩
          · simp [parseYMD, hy, hd1, hm, hd2, hdy] at h
          · simp only [parseYMD, hy, hd1, hm, hd2, hdy] at h
            by_cases hr : r5 = []
            · rw [if_pos hr] at h
              cases h
              exact hle
            · rw [if_neg hr] at h
              exact Option.noConfusion h

/-- Whatever `parseDate` accepts is a structurally valid date with a
four-digit year. -/
theorem parseDate_valid {s : String} {d : Date} (h : parseDate s = some d) :
    d.Valid ∧ 1 ≤ d.year ∧ d.year ≤ 9999 := by
  rcases hp : parseYMD s.data with _ | ⟨y, m, dy⟩
  · simp [parseDate, hp] at h
  · have hy9 := parseYMD_year_le hp
    simp only [parseDate, hp] at h
    by_cases hc : 1 ≤ y ∧ 1 ≤ m ∧ m ≤ 12 ∧ 1 ≤ dy ∧ dy ≤ daysInMonth y m
    · rw [if_pos hc] at h
      cases h
      exact ⟨hc, hc.1, hy9⟩
    · rw [if_neg hc] at h
      exact Option.noConfusion h

theorem leapsBefore_succ_leap (y : Nat) (hy : 1 ≤ y) (h : isLeap y = true) :
    leapsBefore (y + 1) = leapsBefore y + 1 := by
  unfold isLeap at h
  simp only [Bool.or_eq_true, Bool.and_eq_true, beq_iff_eq, bne_iff_ne, ne_eq] at h
  unfold leapsBefore
  omega

theorem leapsBefore_succ_nonleap (y : Nat) (hy : 1 ≤ y) (h : isLeap y = false) :
    leapsBefore (y + 1) = leapsBefore y := by
  unfold isLeap at h
  simp only [Bool.or_eq_false_iff, Bool.and_eq_false_iff, beq_eq_false_iff_ne, ne_eq,
    bne_eq_false_iff_eq] at h
  unfold leapsBefore
  omega

theorem leapsBefore_le_succ (y : Nat) : leapsBefore y ≤ leapsBefore (y + 1) := by
  rcases Nat.eq_zero_or_pos y with h | h
  · subst h; decide
  · cases hL : isLeap y with
    | true => rw [leapsBefore_succ_leap y h hL]; omega
    | false => rw [leapsBefore_succ_nonleap y h hL]

theorem leapsBefore_mono {a b : Nat} (h : a ≤ b) : leapsBefore a ≤ leapsBefore b := by
  induction b with
  | zero =>
    have : a = 0 := by omega
    subst this
    exact Nat.le_refl _
  | succ k ih =>
    rcases Nat.lt_or_ge a (k + 1) with hk | hk
    · exact Nat.le_trans (ih (by omega)) (leapsBefore_le_succ k)
    · have : a = k + 1 := by omega
      subst this
      exact Nat.le_refl _

theorem daysBeforeMonth_succ : ∀ l : Bool, ∀ m, 1 ≤ m → m < 12 →
    daysBeforeMonth l (m + 1) = daysBeforeMonth l m + monthDays l m := by decide

theorem monthDays_pos : ∀ l : Bool, ∀ m, 1 ≤ m → m < 13 → 1 ≤ monthDays l m := by decide

theorem daysBeforeMonth_one : ∀ l : Bool, daysBeforeMonth l 1 = 0 := by decide

theorem daysBeforeMonth_twelve :
    ∀ l : Bool, daysBeforeMonth l 12 = 334 + (if l = true then 1 else 0) := by decide

theorem monthDays_twelve : ∀ l : Bool, monthDays l 12 = 31 := by decide

theorem toOrd_nextDate (d : Date) (hv : d.Valid) : toOrd (nextDate d) = toOrd d + 1 := by
  obtain ⟨h1, h2, h3, h4, h5⟩ := hv
  unfold nextDate
  by_cases hd : d.day < daysInMonth d.year d.month
  · rw [if_pos hd]
    show 365 * (d.year - 1) + leapsBefore d.year + daysBeforeMonth (isLeap d.year) d.month +
      (d.day + 1) = toOrd d + 1
    unfold toOrd
    omega
  · rw [if_neg hd]
    have hde : d.day = daysInMonth d.year d.month := by omega
    by_cases hm : d.month < 12
    · rw [if_pos hm]
      show 365 * (d.year - 1) + leapsBefore d.year +
        daysBeforeMonth (isLeap d.year) (d.month + 1) + 1 = toOrd d + 1
      have hs := daysBeforeMonth_succ (isLeap d.year) d.month h2 hm
      have hdm : d.day = monthDays (isLeap d.year) d.month := hde
      unfold toOrd
      omega
    · rw [if_neg hm]
      have hm12 : d.month = 12 := by omega
      show 365 * (d.year + 1 - 1) + leapsBefore (d.year + 1) +
        daysBeforeMonth (isLeap (d.year + 1)) 1 + 1 = toOrd d + 1
      rw [daysBeforeMonth_one]
      have hdm : d.day = monthDays (isLeap d.year) 12 := by rw [← hm12]; exact hde
      rw [monthDays_twelve] at hdm
      unfold toOrd
      rw [hm12]
      cases hL : isLeap d.year with
      | true =>
        rw [show daysBeforeMonth true 12 = 335 from by decide,
          leapsBefore_succ_leap d.year h1 hL]
        omega
      | false =>
        rw [show daysBeforeMonth false 12 = 334 from by decide,
          leapsBefore_succ_nonleap d.year h1 hL]
        omega

theorem Date.valid_mk {y m day : Nat} (h1 : 1 ≤ y) (h2 : 1 ≤ m) (h3 : m ≤ 12)
    (h4 : 1 ≤ day) (h5 : day ≤ daysInMonth y m) : (Date.mk y m day).Valid :=
  ⟨h1, h2, h3, h4, h5⟩

theorem valid_nextDate (d : Date) (hv : d.Valid) : (nextDate d).Valid := by
  obtain ⟨h1, h2, h3, h4, h5⟩ := hv
  unfold nextDate
  by_cases hd : d.day < daysInMonth d.year d.month
  · rw [if_pos hd]
    exact Date.valid_mk h1 h2 h3 (by omega) hd
  · rw [if_neg hd]
    by_cases hm : d.month < 12
    · rw [if_pos hm]
      exact Date.valid_mk h1 (by omega) hm (Nat.le_refl 1)
        (monthDays_pos (isLeap d.year) (d.month + 1) (by omega) (by omega))
    · rw [if_neg hm]
      exact Date.valid_mk (by omega) (Nat.le_refl 1) (by omega) (Nat.le_refl 1)
        (monthDays_pos (isLeap (d.year + 1)) 1 (Nat.le_refl 1) (by omega))

theorem valid_addDays (n : Nat) (d : Date) (hv : d.Valid) : (addDays n d).Valid := by
  induction n generalizing d with
  | zero => rw [addDays_zero]; exact hv
  | succ k ih =>
    rw [addDays_succ]
    exact ih (nextDate d) (valid_nextDate d hv)

theorem toOrd_addDays (n : Nat) (d : Date) (hv : d.Valid) :
    toOrd (addDays n d) = toOrd d + n := by
  induction n generalizing d with
  | zero => rw [addDays_zero]; omega
  | succ k ih =>
    rw [addDays_succ, ih (nextDate d) (valid_nextDate d hv), toOrd_nextDate d hv]
    omega

theorem dBM_day_le_leap : ∀ m, 1 ≤ m → m < 13 → ∀ day, day ≤ monthDays true m →
    daysBeforeMonth true m + day ≤ 366 := by decide

theorem dBM_day_le_nonleap : ∀ m, 1 ≤ m → m < 13 → ∀ day, day ≤ monthDays false m →
    daysBeforeMonth false m + day ≤ 365 := by decide

theorem dBM_lt_mono : ∀ l : Bool, ∀ m1, 1 ≤ m1 → m1 < 13 → ∀ m2, m1 + 1 ≤ m2 → m2 < 13 →
    ∀ d1, d1 ≤ monthDays l m1 →
    daysBeforeMonth l m1 + d1 < daysBeforeMonth l m2 + 1 := by decide

theorem toOrd_lt_of_lt {a b : Date} (ha : a.Valid) (hb : b.Valid) (h : Date.lt a b) :
    toOrd a < toOrd b := by
  obtain ⟨a1, a2, a3, a4, a5⟩ := ha
  obtain ⟨b1, b2, b3, b4, b5⟩ := hb
  have a5' : a.day ≤ monthDays (isLeap a.year) a.month := a5
  have b5' : b.day ≤ monthDays (isLeap b.year) b.month := b5
  unfold Date.lt at h
  unfold toOrd
  rcases h with hy | ⟨hy, hm | ⟨hm, hd⟩⟩
  · have e3 : leapsBefore (a.year + 1) ≤ leapsBefore b.year := leapsBefore_mono (by omega)
    cases hL : isLeap a.year with
    | true =>
      have e1 : daysBeforeMonth true a.month + a.day ≤ 366 :=
        dBM_day_le_leap a.month a2 (by omega) a.day (by rw [hL] at a5'; exact a5')
      have e2 := leapsBefore_succ_leap a.year a1 hL
      omega
    | false =>
      have e1 : daysBeforeMonth false a.month + a.day ≤ 365 :=
        dBM_day_le_nonleap a.month a2 (by omega) a.day (by rw [hL] at a5'; exact a5')
      have e2 := leapsBefore_succ_nonleap a.year a1 hL
      omega
  · rw [hy]
    rw [hy] at a5'
    have := dBM_lt_mono (isLeap b.year) a.month a2 (by omega) b.month (by omega) (by omega)
      a.day a5'
    omega
  · rw [hy, hm]
    omega

theorem toOrd_lt_iff {a b : Date} (ha : a.Valid) (hb : b.Valid) :
    Date.lt a b ↔ toOrd a < toOrd b := by
  constructor
  · exact toOrd_lt_of_lt ha hb
  · intro h
    by_contra hc
    rw [Date.not_lt_iff] at hc
    cases hc with
    | inl hlt => exact absurd (toOrd_lt_of_lt hb ha hlt) (by omega)
    | inr heq => subst heq; omega

theorem toOrd_le_iff {a b : Date} (ha : a.Valid) (hb : b.Valid) :
    Date.le a b ↔ toOrd a ≤ toOrd b := by
  constructor
  · intro h
    cases h with
    | inl hlt => exact Nat.le_of_lt ((toOrd_lt_iff ha hb).mp hlt)
    | inr heq => subst heq; exact Nat.le_refl _
  · intro h
    rcases Date.le_total a b with hab | hba
    · exact hab
    · cases hba with
      | inl hlt => exact absurd ((toOrd_lt_iff hb ha).mp hlt) (by omega)
      | inr heq => exact Or.inr heq.symm

theorem toOrd_inj {a b : Date} (ha : a.Valid) (hb : b.Valid) (h : toOrd a = toOrd b) :
    a = b := by
  by_contra hne
  rcases Date.le_total a b with hab | hba
  · exact absurd ((toOrd_lt_iff ha hb).mp (Date.lt_of_le_of_ne hab hne)) (by omega)
  · exact absurd ((toOrd_lt_iff hb ha).mp (Date.lt_of_le_of_ne hba (fun e => hne e.symm)))
      (by omega)

/-- An event list for one date (Python `list[str]`, insertion-ordered). -/
abbrev EventList := List String

/-- The in-memory `calendar_db`: an `OrderedDict` from dates to event lists,
modelled as an association list in key-insertion order. -/
abbrev Calendar := List (Date × EventList)

/-- One on-disk snapshot: the JSON object written by `_save_calendar_db`,
mapping `isoformat` strings to event lists, in key order. -/
abbrev Snapshot := List (String × EventList)

/-- The keys of the calendar, in iteration order. -/
def calKeys (c : Calendar) : List Date := c.map Prod.fst

/-- `date_obj in self.calendar_db` / `self.calendar_db[date_obj]` (read). -/
def calFind (c : Calendar) (d : Date) : Option EventList :=
  (c.find? (fun p => p.1 = d)).map Prod.snd

/-- `self.calendar_db[date_obj] = v` for an existing key (in-place update,
key position unchanged). -/
def setVal (c : Calendar) (d : Date) (v : EventList) : Calendar :=
  c.map (fun p => if p.1 = d then (d, v) else p)

/-- `OrderedDict(sorted(self.calendar_db.items(), key=lambda x: x[0]))`:
re-sort the mapping by key, ascending. -/
def sortByKey (c : Calendar) : Calendar :=
  List.insertionSort (fun p q : Date × EventList => Date.le p.1 q.1) c

/-- `_save_calendar_db`: serialize the calendar, converting each key with
`isoformat`. -/
def saveSnapshot (c : Calendar) : Snapshot :=
  c.map (fun p => (isoformat p.1, p.2))

/-- The caller-visible outcome of a mutating store operation (the result
strings of `add_event` / `cut_events_before_date`, abstracted to their
outcome kind plus the data interpolated into the message). -/
inductive Outcome where
  | invalidDate
  | added (date event : String)
  | duplicate (date event : String)
  | removedBefore (cutoff : String)
deriving DecidableEq

/-- `CalendarManager.add_event`.  Returns the outcome, the new in-memory
calendar, and the snapshots written to disk during the call. -/
def add_event (c : Calendar) (date event : String) :
    Outcome × Calendar × List Snapshot :=
  match parseDate date with
  | none => (Outcome.invalidDate, c, [])
  | some dobj =>
    let c1 := if (calFind c dobj).isSome then c else c ++ [(dobj, [])]
    let evs := (calFind c1 dobj).getD []
    if event ∈ evs then (Outcome.duplicate date event, c1, [])
    else
      let c2 := setVal c1 dobj (evs ++ [event])
      let c3 := sortByKey c2
      (Outcome.added date event, c3, [saveSnapshot c3])

/-- The message part of `show_events`, abstracted to its kind. -/
inductive ShowResult where
  | invalidFmt
  | listing (date : String) (events : EventList)
  | noEvents (date : String)
deriving DecidableEq

/-- `CalendarManager.show_events`.  The Python method only reads
`self.calendar_db`; the returned state and write list make that frame
condition checkable. -/
def show_events (c : Calendar) (date : String) :
    (ShowResult × Bool) × Calendar × List Snapshot :=
  match parseDate date with
  | none => ((ShowResult.invalidFmt, false), c, [])
  | some dobj =>
    match calFind c dobj with
    | some evs =>
      if evs ≠ [] then ((ShowResult.listing date evs, true), c, [])
      else ((ShowResult.noEvents date, false), c, [])
    | none => ((ShowResult.noEvents date, false), c, [])

/-- `CalendarManager.cut_events_before_date`: delete every key strictly
before the cutoff (deletion keeps the order of the remaining keys), then
persist. -/
def cut_events_before_date (c : Calendar) (cutoff : String) :
    Outcome × Calendar × List Snapshot :=
  match parseDate cutoff with
  | none => (Outcome.invalidDate, c, [])
  | some cd =>
    let c2 := c.filter (fun p => ! decide (Date.lt p.1 cd))
    (Outcome.removedBefore cutoff, c2, [saveSnapshot c2])

/-- Fuel for the scheduling loop: strictly more than the `10951` distinct
days from the start date to the horizon inclusive, so for any growth factor
`≥ 1` the loop always exits by its own condition, never by fuel. -/
def FUEL : Nat := 10952

/-- `end_date_obj = start_date_obj + timedelta(days=365 * 30)`. -/
def endDate (start : Date) : Date := addDays (365 * 30) start

/-- The date sequence visited by the `while` loop of `add_multiple`:
`current` starts at the start date with `gap = 1`; each iteration visits
`current`, then advances it by `gap` days and multiplies `gap` by the
growth factor. -/
def schedDates (base : Nat) (endD : Date) : Nat → Nat → Date → List Date
  | 0, _, _ => []
  | fuel + 1, gap, cur =>
    if Date.le cur endD then cur :: schedDates base endD fuel (gap * base) (addDays gap cur)
    else []

/-- The same `while` loop for an arbitrary, possibly non-integer growth
factor `exponent_base`.  Once `gap` turns fractional, the Python statement
`current_date_obj += timedelta(days=gap)` still advances the date by a
whole number of days, because adding a `timedelta` to a `date` uses only
its `.days` component — `timedelta(days=gap).days` is `⌊gap⌋` — while
`gap *= exponent_base` keeps accumulating the full value.  The running gap
is carried as an exact rational; for an integer factor the floors are
exact and this coincides with `schedDates` (`schedDatesQ_natCast`). -/
def schedDatesQ (base : ℚ) (endD : Date) : Nat → ℚ → Date → List Date
  | 0, _, _ => []
  | fuel + 1, gap, cur =>
    if Date.le cur endD then
      cur :: schedDatesQ base endD fuel (gap * base) (addDays (Int.toNat ⌊gap⌋) cur)
    else []

/-- The `while` loop of `add_multiple`: one `add_event` call per visited
date (each date passed as its own `isoformat` string), collecting the
per-date outcomes, the final calendar, and all snapshots written. -/
def schedLoop (base : Nat) (endD : Date) (event : String) :
    Nat → Nat → Date → Calendar → List Outcome × Calendar × List Snapshot
  | 0, _, _, c => ([], c, [])
  | fuel + 1, gap, cur, c =>
    if Date.le cur endD then
      let step := add_event c (isoformat cur) event
      let rest := schedLoop base endD event fuel (gap * base) (addDays gap cur) step.2.1
      (step.1 :: rest.1, rest.2.1, step.2.2 ++ rest.2.2)
    else ([], c, [])

/-- Result of `add_multiple`, abstracted like `Outcome`: either the invalid
start-date message or the joined per-date outcome lines. -/
inductive MultiResult where
  | invalidStartFmt
  | outputs (xs : List Outcome)
deriving DecidableEq

/-- The outcome lines carried by a `MultiResult`. -/
def MultiResult.outs : MultiResult → List Outcome
  | MultiResult.invalidStartFmt => []
  | MultiResult.outputs xs => xs

/-- Start-date resolution of `add_multiple`: `datetime.now().date()` when
omitted (supplied as the `today` parameter), else `strptime`. -/
def resolveStart (today : Date) : Option String → Option Date
  | none => some today
  | some s => parseDate s

/-- `CalendarManager.add_multiple` (the Python default for the growth factor
`exponent_base` is `2`). -/
def add_multiple (today : Date) (c : Calendar) (event : String) (base : Nat)
    (start : Option String) : MultiResult × Calendar × List Snapshot :=
  match resolveStart today start with
  | none => (MultiResult.invalidStartFmt, c, [])
  | some startD =>
    let r := schedLoop base (endDate startD) event FUEL 1 startD c
    (MultiResult.outputs r.1, r.2.1, r.2.2)

/-- Dictionary lookup in a parsed JSON snapshot (`db[key]`). -/
def lookupStr (file : Snapshot) (k : String) : Option EventList :=
  (file.find? (fun p => p.1 = k)).map Prod.snd

/-- `strptime` applied to every persisted key; any failure is a fatal load
error (an uncaught `ValueError` in `_load_calendar_db`). -/
def parsedKeys : List String → Option (List Date)
  | [] => some []
  | s :: rest =>
    match parseDate s, parsedKeys rest with
    | some d, some ds => some (d :: ds)
    | _, _ => none

/-- `sorted(dates)` in `_load_calendar_db`. -/
def sortDates (l : List Date) : List Date :=
  List.insertionSort Date.le l

/-- `calendar_db[date] = db[date.isoformat()]` on an `OrderedDict`: update
in place if the key exists, else append at the end. -/
def odInsert (c : Calendar) (d : Date) (v : EventList) : Calendar :=
  if (calFind c d).isSome then setVal c d v else c ++ [(d, v)]

/-- The rebuild loop of `_load_calendar_db`: for each parsed date in sorted
order, fetch the entry stored under its `isoformat` string (a missing entry
is a fatal `KeyError`). -/
def buildCalendar (file : Snapshot) : List Date → Calendar → Option Calendar
  | [], c => some c
  | d :: ds, c =>
    match lookupStr file (isoformat d) with
    | none => none
    | some v => buildCalendar file ds (odInsert c d v)

/-- `_load_calendar_db` on an existing database file (an absent file yields
the empty calendar, i.e. `load_calendar_db [] = some []`). -/
def load_calendar_db (file : Snapshot) : Option Calendar :=
  match parsedKeys (file.map Prod.fst) with
  | none => none
  | some ds => buildCalendar file (sortDates ds) []

/-- Calendar states reachable through the manager: an initial load followed
by any sequence of the mutating operations. -/
inductive Reach : Calendar → Prop where
  | loaded (file : Snapshot) (c : Calendar) : load_calendar_db file = some c → Reach c
  | addStep (c : Calendar) (s e : String) : Reach c → Reach (add_event c s e).2.1
  | cutStep (c : Calendar) (s : String) : Reach c → Reach (cut_events_before_date c s).2.1
  | multiStep (today : Date) (c : Calendar) (e : String) (b : Nat) (sd : Option String) :
      Reach c → Reach (add_multiple today c e b sd).2.1

/-- The store invariant: keys strictly ascending (hence pairwise distinct),
and every key a valid in-range date. -/
def GoodCal (c : Calendar) : Prop :=
  List.Pairwise Date.lt (calKeys c) ∧ ∀ d ∈ calKeys c, d.Valid ∧ d.year ≤ 9999

theorem calFind_cons (p : Date × EventList) (rest : Calendar) (d : Date) :
    calFind (p :: rest) d = if p.1 = d then some p.2 else calFind rest d := by
  by_cases hp : p.1 = d
  · simp [calFind, List.find?_cons_of_pos, hp]
  · simp [calFind, List.find?_cons_of_neg, hp]

theorem calFind_eq_none {c : Calendar} {d : Date} :
    calFind c d = none ↔ d ∉ calKeys c := by
  induction c with
  | nil => simp [calFind, calKeys]
  | cons p rest ih =>
    rw [calFind_cons]
    by_cases hp : p.1 = d
    · simp [hp, calKeys]
    · simp [hp, calKeys, ih]
      intro h
      exact fun e => hp e.symm

theorem calFind_isSome {c : Calendar} {d : Date} :
    (calFind c d).isSome = true ↔ d ∈ calKeys c := by
  rcases h : calFind c d with _ | v
  · simp [calFind_eq_none.mp h]
  · have : ¬ calFind c d = none := by rw [h]; simp
    simp [calFind_eq_none] at this
    simp [this]

theorem calFind_mem {c : Calendar} {d : Date} {v : EventList}
    (h : calFind c d = some v) : (d, v) ∈ c := by
  induction c with
  | nil => simp [calFind] at h
  | cons p rest ih =>
    rw [calFind_cons] at h
    by_cases hp : p.1 = d
    · rw [if_pos hp] at h
      cases h
      rw [← hp]
      exact List.mem_cons_self _ _
    · rw [if_neg hp] at h
      exact List.mem_cons_of_mem _ (ih h)

theorem calFind_eq_some_of_mem {c : Calendar} {d : Date} {v : EventList}
    (hnd : (calKeys c).Nodup) (hm : (d, v) ∈ c) : calFind c d = some v := by
  induction c with
  | nil => simp at hm
  | cons p rest ih =>
    rw [calFind_cons]
    rcases List.mem_cons.mp hm with he | ht
    · subst he
      simp
    · have hp : p.1 ≠ d := by
        intro he
        have : d ∈ calKeys rest := List.mem_map.mpr ⟨(d, v), ht, rfl⟩
        rw [calKeys, List.map_cons, List.nodup_cons] at hnd
        exact hnd.1 (he ▸ this)
      rw [if_neg hp]
      exact ih (by rw [calKeys, List.map_cons, List.nodup_cons] at hnd; exact hnd.2) ht

theorem calKeys_perm {c c' : Calendar} (h : c.Perm c') : (calKeys c).Perm (calKeys c') :=
  h.map Prod.fst

theorem calFind_perm {c c' : Calendar} (hnd : (calKeys c).Nodup) (h : c.Perm c')
    (d : Date) : calFind c d = calFind c' d := by
  have hnd' : (calKeys c').Nodup := ((calKeys_perm h).nodup_iff).mp hnd
  rcases hf : calFind c d with _ | v
  · have : d ∉ calKeys c' := fun hm => by
      have : d ∈ calKeys c := ((calKeys_perm h).mem_iff).mpr hm
      exact calFind_eq_none.mp hf this
    exact (calFind_eq_none.mpr this).symm
  · exact (calFind_eq_some_of_mem hnd' (h.mem_iff.mp (calFind_mem hf))).symm

theorem calKeys_setVal (c : Calendar) (d : Date) (v : EventList) :
    calKeys (setVal c d v) = calKeys c := by
  induction c with
  | nil => rfl
  | cons p rest ih =>
    show calKeys ((if p.1 = d then (d, v) else p) :: setVal rest d v) = calKeys (p :: rest)
    by_cases hp : p.1 = d
    · rw [if_pos hp]
      show d :: calKeys (setVal rest d v) = p.1 :: calKeys rest
      rw [hp, ih]
    · rw [if_neg hp]
      show p.1 :: calKeys (setVal rest d v) = p.1 :: calKeys rest
      rw [ih]

theorem calFind_setVal_self {c : Calendar} {d : Date} (v : EventList)
    (h : d ∈ calKeys c) : calFind (setVal c d v) d = some v := by
  induction c with
  | nil => simp [calKeys] at h
  | cons p rest ih =>
    simp only [setVal, List.map_cons]
    by_cases hp : p.1 = d
    · rw [if_pos hp, calFind_cons, if_pos rfl]
    · rw [if_neg hp, calFind_cons, if_neg hp]
      refine ih ?_
      simp only [calKeys, List.map_cons, List.mem_cons] at h
      rcases h with he | ht
      · exact absurd he.symm hp
      · exact ht

theorem calFind_append_right {c1 c2 : Calendar} {d : Date}
    (h : calFind c1 d = none) : calFind (c1 ++ c2) d = calFind c2 d := by
  induction c1 with
  | nil => rfl
  | cons p rest ih =>
    rw [calFind_cons] at h
    by_cases hp : p.1 = d
    · rw [if_pos hp] at h; cases h
    · rw [if_neg hp] at h
      rw [List.cons_append, calFind_cons, if_neg hp]
      exact ih h

instance : IsTotal (Date × EventList) (fun p q : Date × EventList => Date.le p.1 q.1) :=
  ⟨fun a b => Date.le_total a.1 b.1⟩

instance : IsTrans (Date × EventList) (fun p q : Date × EventList => Date.le p.1 q.1) :=
  ⟨fun _ _ _ h1 h2 => Date.le_trans h1 h2⟩

instance : IsTotal Date Date.le := ⟨Date.le_total⟩

instance : IsTrans Date Date.le := ⟨fun _ _ _ h1 h2 => Date.le_trans h1 h2⟩

theorem sortByKey_perm (c : Calendar) : (sortByKey c).Perm c :=
  List.perm_insertionSort _ c

theorem sortByKey_sorted (c : Calendar) :
    List.Pairwise (fun p q : Date × EventList => Date.le p.1 q.1) (sortByKey c) :=
  List.sorted_insertionSort _ c

theorem pairwise_lt_of_le_nodup {c : Calendar}
    (hle : List.Pairwise (fun p q : Date × EventList => Date.le p.1 q.1) c)
    (hnd : (calKeys c).Nodup) : List.Pairwise Date.lt (calKeys c) := by
  have hnd2 : List.Pairwise (fun a b : Date => a ≠ b) (List.map Prod.fst c) := hnd
  rw [List.pairwise_map] at hnd2
  unfold calKeys
  rw [List.pairwise_map]
  exact (hle.and hnd2).imp (fun h => Date.lt_of_le_of_ne h.1 h.2)

theorem pairwise_keys_nodup {c : Calendar}
    (h : List.Pairwise Date.lt (calKeys c)) : (calKeys c).Nodup :=
  h.imp (fun hlt he => absurd (he ▸ hlt) (Date.lt_irrefl _))

theorem calFind_if_add (c : Calendar) (dobj : Date) :
    calFind (if (calFind c dobj).isSome then c else c ++ [(dobj, [])]) dobj
      = some ((calFind c dobj).getD []) := by
  rcases hf : calFind c dobj with _ | v
  · rw [if_neg (by simp [hf])]
    rw [calFind_append_right hf, calFind_cons]
    simp
  · rw [if_pos (by simp [hf])]
    rw [hf]
    rfl

theorem calKeys_if_add (c : Calendar) (dobj : Date) :
    calKeys (if (calFind c dobj).isSome then c else c ++ [(dobj, [])]) = calKeys c ∨
    (calKeys (if (calFind c dobj).isSome then c else c ++ [(dobj, [])]) = calKeys c ++ [dobj] ∧
      dobj ∉ calKeys c) := by
  rcases hf : calFind c dobj with _ | v
  · right
    rw [if_neg (by simp [hf])]
    constructor
    · simp [calKeys]
    · exact calFind_eq_none.mp hf
  · left
    rw [if_pos (by simp [hf])]

theorem add_event_good (c : Calendar) (s e : String) (h : GoodCal c) :
    GoodCal (add_event c s e).2.1 := by
  obtain ⟨hsort, hval⟩ := h
  have hnd := pairwise_keys_nodup hsort
  rcases hp : parseDate s with _ | dobj
  · simp only [add_event, hp]
    exact ⟨hsort, hval⟩
  · have hdv := parseDate_valid hp
    simp only [add_event, hp]
    set c1 := if (calFind c dobj).isSome then c else c ++ [(dobj, [])] with hc1
    have hfind1 : calFind c1 dobj = some ((calFind c dobj).getD []) := by
      rw [hc1]; exact calFind_if_add c dobj
    have hkeys1 : calKeys c1 = calKeys c ∨
        (calKeys c1 = calKeys c ++ [dobj] ∧ dobj ∉ calKeys c) := by
      rw [hc1]; exact calKeys_if_add c dobj
    have hnd1 : (calKeys c1).Nodup := by
      rcases hkeys1 with h1 | ⟨h1, h2⟩
      · rw [h1]; exact hnd
      · rw [h1]
        simp [List.nodup_append, hnd, h2]
    have hval1 : ∀ d ∈ calKeys c1, d.Valid ∧ d.year ≤ 9999 := by
      intro d hd
      rcases hkeys1 with h1 | ⟨h1, _⟩
      · exact hval d (h1 ▸ hd)
      · rw [h1] at hd
        rcases List.mem_append.mp hd with hd | hd
        · exact hval d hd
        · simp at hd
          subst hd
          exact ⟨hdv.1, hdv.2.2⟩
    by_cases hdup : e ∈ ((calFind c1 dobj).getD [])
    · rw [if_pos hdup]
      show GoodCal c1
      rcases hf : calFind c dobj with _ | v
      · exfalso
        rw [hfind1, hf] at hdup
        simp at hdup
      · have hceq : c1 = c := by
          rw [hc1, if_pos (by simp [hf])]
        rw [hceq]
        exact ⟨hsort, hval⟩
    · rw [if_neg hdup]
      show GoodCal (sortByKey (setVal c1 dobj ((calFind c1 dobj).getD [] ++ [e])))
      have hperm := calKeys_perm (sortByKey_perm (setVal c1 dobj ((calFind c1 dobj).getD [] ++ [e])))
      rw [calKeys_setVal] at hperm
      constructor
      · exact pairwise_lt_of_le_nodup (sortByKey_sorted _) (hperm.nodup_iff.mpr hnd1)
      · intro d hd
        exact hval1 d (hperm.mem_iff.mp hd)

theorem cut_good (c : Calendar) (s : String) (h : GoodCal c) :
    GoodCal (cut_events_before_date c s).2.1 := by
  obtain ⟨hsort, hval⟩ := h
  rcases hp : parseDate s with _ | cd
  · simp only [cut_events_before_date, hp]
    exact ⟨hsort, hval⟩
  · simp only [cut_events_before_date, hp]
    show GoodCal (c.filter (fun p => ! decide (Date.lt p.1 cd)))
    have hsub : List.Sublist (c.filter (fun p => ! decide (Date.lt p.1 cd))) c :=
      List.filter_sublist c
    constructor
    · exact List.Pairwise.sublist (hsub.map Prod.fst) hsort
    · intro d hd
      exact hval d ((hsub.map Prod.fst).mem hd)

theorem schedLoop_good (base : Nat) (endD : Date) (e : String) :
    ∀ fuel gap cur c, GoodCal c → GoodCal (schedLoop base endD e fuel gap cur c).2.1 := by
  intro fuel
  induction fuel with
  | zero => intro gap cur c h; exact h
  | succ k ih =>
    intro gap cur c h
    simp only [schedLoop]
    by_cases hc : Date.le cur endD
    · rw [if_pos hc]
      exact ih _ _ _ (add_event_good c (isoformat cur) e h)
    · rw [if_neg hc]
      exact h

theorem prodFst_mk {α β : Type} (a : α) (b : β) : (a, b).1 = a := rfl

theorem prodSnd_mk {α β : Type} (a : α) (b : β) : (a, b).2 = b := rfl

theorem add_multiple_none (today : Date) (c : Calendar) (e : String) (b : Nat)
    (sd : Option String) (hr : resolveStart today sd = none) :
    add_multiple today c e b sd = (MultiResult.invalidStartFmt, c, []) := by
  simp only [add_multiple, hr]

theorem add_multiple_some (today : Date) (c : Calendar) (e : String) (b : Nat)
    (sd : Option String) (startD : Date) (hr : resolveStart today sd = some startD) :
    add_multiple today c e b sd =
      (MultiResult.outputs (schedLoop b (endDate startD) e FUEL 1 startD c).1,
       (schedLoop b (endDate startD) e FUEL 1 startD c).2.1,
       (schedLoop b (endDate startD) e FUEL 1 startD c).2.2) := by
  simp only [add_multiple, hr]

theorem add_multiple_state_none (today : Date) (c : Calendar) (e : String) (b : Nat)
    (sd : Option String) (hr : resolveStart today sd = none) :
    (add_multiple today c e b sd).2.1 = c := by
  conv_lhs => rw [add_multiple_none today c e b sd hr, prodSnd_mk, prodFst_mk]

theorem add_multiple_state_some (today : Date) (c : Calendar) (e : String) (b : Nat)
    (sd : Option String) (startD : Date) (hr : resolveStart today sd = some startD) :
    (add_multiple today c e b sd).2.1 =
      (schedLoop b (endDate startD) e FUEL 1 startD c).2.1 := by
  conv_lhs => rw [add_multiple_some today c e b sd startD hr, prodSnd_mk, prodFst_mk]

theorem add_multiple_outs_some (today : Date) (c : Calendar) (e : String) (b : Nat)
    (sd : Option String) (startD : Date) (hr : resolveStart today sd = some startD) :
    (add_multiple today c e b sd).1 =
      MultiResult.outputs (schedLoop b (endDate startD) e FUEL 1 startD c).1 := by
  conv_lhs => rw [add_multiple_some today c e b sd startD hr, prodFst_mk]

theorem add_multiple_good (today : Date) (c : Calendar) (e : String) (b : Nat)
    (sd : Option String) (h : GoodCal c) : GoodCal (add_multiple today c e b sd).2.1 := by
  rcases hr : resolveStart today sd with _ | startD
  · rw [add_multiple_state_none today c e b sd hr]
    exact h
  · rw [add_multiple_state_some today c e b sd startD hr]
    exact schedLoop_good b (endDate startD) e FUEL 1 startD c h

theorem calKeys_append (c1 c2 : Calendar) :
    calKeys (c1 ++ c2) = calKeys c1 ++ calKeys c2 :=
  List.map_append Prod.fst c1 c2

theorem sortDates_sorted (l : List Date) : List.Pairwise Date.le (sortDates l) :=
  List.sorted_insertionSort Date.le l

theorem sortDates_perm (l : List Date) : (sortDates l).Perm l :=
  List.perm_insertionSort Date.le l

theorem parsedKeys_valid :
    ∀ ss ds, parsedKeys ss = some ds → ∀ d ∈ ds, d.Valid ∧ d.year ≤ 9999 := by
  intro ss
  induction ss with
  | nil =>
    intro ds h d hd
    simp only [parsedKeys] at h
    cases h
    simp at hd
  | cons s rest ih =>
    intro ds h d hd
    rcases hp : parseDate s with _ | d0
    · simp only [parsedKeys, hp] at h
      exact Option.noConfusion h
    · rcases hr : parsedKeys rest with _ | ds0
      · simp only [parsedKeys, hp, hr] at h
        exact Option.noConfusion h
      · simp only [parsedKeys, hp, hr] at h
        cases h
        rcases List.mem_cons.mp hd with he | ht
        · subst he
          have := parseDate_valid hp
          exact ⟨this.1, this.2.2⟩
        · exact ih ds0 hr d ht

theorem odInsert_good {acc : Calendar} {d : Date} (v : EventList)
    (hg : GoodCal acc) (hv : d.Valid ∧ d.year ≤ 9999)
    (hcross : ∀ k ∈ calKeys acc, Date.le k d) : GoodCal (odInsert acc d v) := by
  obtain ⟨hsort, hval⟩ := hg
  unfold odInsert
  by_cases hmem : (calFind acc d).isSome = true
  · rw [if_pos hmem]
    constructor
    · rw [calKeys_setVal]
      exact hsort
    · intro k hk
      rw [calKeys_setVal] at hk
      exact hval k hk
  · rw [if_neg hmem]
    have hnotin : d ∉ calKeys acc := by
      intro hm
      exact hmem (calFind_isSome.mpr hm)
    constructor
    · rw [calKeys_append]
      rw [List.pairwise_append]
      refine ⟨hsort, by simp [calKeys], ?_⟩
      intro k hk d' hd'
      simp only [calKeys, List.map_cons, List.map_nil, List.mem_singleton] at hd'
      subst hd'
      exact Date.lt_of_le_of_ne (hcross k hk) (fun he => hnotin (he ▸ hk))
    · intro k hk
      rw [calKeys_append] at hk
      rcases List.mem_append.mp hk with hk | hk
      · exact hval k hk
      · simp only [calKeys, List.map_cons, List.map_nil, List.mem_singleton] at hk
        subst hk
        exact hv

theorem calKeys_odInsert_sub {acc : Calendar} {d : Date} (v : EventList) :
    ∀ k ∈ calKeys (odInsert acc d v), k ∈ calKeys acc ∨ k = d := by
  intro k hk
  unfold odInsert at hk
  by_cases hmem : (calFind acc d).isSome = true
  · rw [if_pos hmem, calKeys_setVal] at hk
    exact Or.inl hk
  · rw [if_neg hmem, calKeys_append] at hk
    rcases List.mem_append.mp hk with hk | hk
    · exact Or.inl hk
    · simp only [calKeys, List.map_cons, List.map_nil, List.mem_singleton] at hk
      exact Or.inr hk

theorem buildCalendar_good (file : Snapshot) :
    ∀ ds acc c', buildCalendar file ds acc = some c' →
    List.Pairwise Date.le ds →
    (∀ d ∈ ds, d.Valid ∧ d.year ≤ 9999) →
    GoodCal acc →
    (∀ k ∈ calKeys acc, ∀ d ∈ ds, Date.le k d) →
    GoodCal c' := by
  intro ds
  induction ds with
  | nil =>
    intro acc c' h _ _ hg _
    simp only [buildCalendar] at h
    cases h
    exact hg
  | cons d ds ih =>
    intro acc c' h hsorted hvalid hg hcross
    rcases hl : lookupStr file (isoformat d) with _ | v
    · simp only [buildCalendar, hl] at h
      exact Option.noConfusion h
    · simp only [buildCalendar, hl] at h
      have hdv : d.Valid ∧ d.year ≤ 9999 := hvalid d (List.mem_cons_self d ds)
      have hdle : ∀ d' ∈ ds, Date.le d d' := (List.pairwise_cons.mp hsorted).1
      refine ih (odInsert acc d v) c' h (List.pairwise_cons.mp hsorted).2
        (fun d' hd' => hvalid d' (List.mem_cons_of_mem d hd')) ?_ ?_
      · exact odInsert_good v hg hdv
          (fun k hk => hcross k hk d (List.mem_cons_self d ds))
      · intro k hk d' hd'
        rcases calKeys_odInsert_sub v k hk with hk2 | hk2
        · exact hcross k hk2 d' (List.mem_cons_of_mem d hd')
        · subst hk2
          exact hdle d' hd'

theorem load_good (file : Snapshot) (c : Calendar)
    (h : load_calendar_db file = some c) : GoodCal c := by
  rcases hp : parsedKeys (file.map Prod.fst) with _ | ds
  · simp only [load_calendar_db, hp] at h
    exact Option.noConfusion h
  · simp only [load_calendar_db, hp] at h
    refine buildCalendar_good file (sortDates ds) [] c h (sortDates_sorted ds) ?_ ?_ ?_
    · intro d hd
      exact parsedKeys_valid (file.map Prod.fst) ds hp d ((sortDates_perm ds).mem_iff.mp hd)
    · exact ⟨List.Pairwise.nil, by intro d hd; simp [calKeys] at hd⟩
    · intro k hk
      simp [calKeys] at hk

theorem reach_good {c : Calendar} (h : Reach c) : GoodCal c := by
  induction h with
  | loaded file c hl => exact load_good file c hl
  | addStep c s e _ ih => exact add_event_good c s e ih
  | cutStep c s _ ih => exact cut_good c s ih
  | multiStep today c e b sd _ ih => exact add_multiple_good today c e b sd ih

theorem c1_keys_nodup {c : Calendar} (d : Date) (hnd : (calKeys c).Nodup) :
    (calKeys (if (calFind c d).isSome then c else c ++ [(d, [])])).Nodup := by
  rcases calKeys_if_add c d with h1 | ⟨h1, h2⟩
  · rw [h1]; exact hnd
  · rw [h1]
    simp [List.nodup_append, hnd, h2]

/-- Claim C4: on a malformed date string, `add_event`, `show_events` and
`cut_events_before_date` all report the invalid-date outcome (with
`hasEvents = false` for `show_events`), leave the in-memory calendar
untouched, and write nothing to the database file. -/
theorem claim_C4 (s e : String) (c : Calendar) (hp : parseDate s = none) :
    add_event c s e = (Outcome.invalidDate, c, []) ∧
    show_events c s = ((ShowResult.invalidFmt, false), c, []) ∧
    cut_events_before_date c s = (Outcome.invalidDate, c, []) := by
  refine ⟨?_, ?_, ?_⟩
  · simp only [add_event, hp]
  · simp only [show_events, hp]
  · simp only [cut_events_before_date, hp]

theorem claim_C4_witness :
    parseDate ("2024-13-01") = none ∧
    (add_event [] ("2024-13-01") ("topic") = (Outcome.invalidDate, [], []) ∧
     show_events [] ("2024-13-01") = ((ShowResult.invalidFmt, false), [], []) ∧
     cut_events_before_date [] ("2024-13-01") = (Outcome.invalidDate, [], [])) :=
  ⟨by decide, claim_C4 ("2024-13-01") ("topic") [] (by decide)⟩

/-- Claim C5: every calendar reachable from a load through any sequence of
store operations iterates its keys in strictly ascending date order. -/
theorem claim_C5 (c : Calendar) (h : Reach c) : List.Pairwise Date.lt (calKeys c) :=
  (reach_good h).1

def sampleFile : Snapshot := [("2024-01-02", ["b"]), ("2024-01-01", ["a"])]

def sampleCal : Calendar := [(⟨2024, 1, 1⟩, ["a"]), (⟨2024, 1, 2⟩, ["b"])]

theorem claim_C5_witness : List.Pairwise Date.lt (calKeys sampleCal) :=
  claim_C5 sampleCal (Reach.loaded sampleFile sampleCal (by decide))

/-- Claim C10: `show_events` is a pure read: for every input string it
leaves the in-memory calendar unchanged and writes no snapshot. -/
theorem claim_C10 (date : String) (c : Calendar) :
    (show_events c date).2.1 = c ∧ (show_events c date).2.2 = [] := by
  rcases hp : parseDate date with _ | dobj
  · simp only [show_events, hp]
    exact ⟨trivial, trivial⟩
  · rcases hf : calFind c dobj with _ | evs
    · simp only [show_events, hp, hf]
      exact ⟨trivial, trivial⟩
    · simp only [show_events, hp, hf]
      by_cases he : evs ≠ []
      · rw [if_pos he]
        exact ⟨rfl, rfl⟩
      · rw [if_neg he]
        exact ⟨rfl, rfl⟩

/-- Claim C6: pruning before a valid cutoff keeps exactly the dates `≥`
cutoff (dates equal to the cutoff are kept), removes every present date
`<` cutoff, and reports success even when nothing was removed. -/
theorem claim_C6 (cutoff : String) (c : Calendar) (cd : Date)
    (hp : parseDate cutoff = some cd) :
    (cut_events_before_date c cutoff).1 = Outcome.removedBefore cutoff ∧
    (∀ k ∈ calKeys (cut_events_before_date c cutoff).2.1, Date.le cd k) ∧
    (∀ k ∈ calKeys c, Date.lt k cd → k ∉ calKeys (cut_events_before_date c cutoff).2.1) ∧
    (∀ k ∈ calKeys c, ¬ Date.lt k cd → k ∈ calKeys (cut_events_before_date c cutoff).2.1) := by
  have hstate : (cut_events_before_date c cutoff).2.1 =
      c.filter (fun p => ! decide (Date.lt p.1 cd)) := by
    simp only [cut_events_before_date, hp]
  have hout : (cut_events_before_date c cutoff).1 = Outcome.removedBefore cutoff := by
    simp only [cut_events_before_date, hp]
  refine ⟨hout, ?_, ?_, ?_⟩
  · intro k hk
    rw [hstate] at hk
    obtain ⟨p, hpmem, hpk⟩ := List.mem_map.mp hk
    have hcond := (List.mem_filter.mp hpmem).2
    simp only [Bool.not_eq_eq_eq_not, Bool.not_true, decide_eq_false_iff_not] at hcond
    rw [← hpk]
    exact (Date.not_lt_iff p.1 cd).mp hcond
  · intro k _ hklt hk2
    rw [hstate] at hk2
    obtain ⟨p, hpmem, hpk⟩ := List.mem_map.mp hk2
    have hcond := (List.mem_filter.mp hpmem).2
    simp only [Bool.not_eq_eq_eq_not, Bool.not_true, decide_eq_false_iff_not] at hcond
    rw [← hpk] at hklt
    exact hcond hklt
  · intro k hkc hnlt
    rw [hstate]
    obtain ⟨p, hpmem, hpk⟩ := List.mem_map.mp hkc
    apply List.mem_map.mpr
    refine ⟨p, List.mem_filter.mpr ⟨hpmem, ?_⟩, hpk⟩
    simp only [Bool.not_eq_eq_eq_not, Bool.not_true, decide_eq_false_iff_not]
    rw [hpk]
    exact hnlt

theorem claim_C6_witness :
    parseDate ("2024-01-02") = some ⟨2024, 1, 2⟩ ∧
    ((cut_events_before_date sampleCal ("2024-01-02")).1 =
        Outcome.removedBefore ("2024-01-02") ∧
     (∀ k ∈ calKeys (cut_events_before_date sampleCal ("2024-01-02")).2.1,
        Date.le ⟨2024, 1, 2⟩ k) ∧
     (∀ k ∈ calKeys sampleCal, Date.lt k ⟨2024, 1, 2⟩ →
        k ∉ calKeys (cut_events_before_date sampleCal ("2024-01-02")).2.1) ∧
     (∀ k ∈ calKeys sampleCal, ¬ Date.lt k ⟨2024, 1, 2⟩ →
        k ∈ calKeys (cut_events_before_date sampleCal ("2024-01-02")).2.1)) :=
  ⟨by decide, claim_C6 ("2024-01-02") sampleCal ⟨2024, 1, 2⟩ (by decide)⟩

/-- Claim C1: adding a fresh (date, event) pair twice to the same manager
yields `Added` then `Duplicate`, the second call does not change the state,
and afterwards the list stored under the date contains the event exactly
once. -/
theorem claim_C1 (s e : String) (c : Calendar) (d : Date)
    (hp : parseDate s = some d) (hnd : (calKeys c).Nodup)
    (hnotin : e ∉ (calFind c d).getD []) :
    (add_event c s e).1 = Outcome.added s e ∧
    (add_event (add_event c s e).2.1 s e).1 = Outcome.duplicate s e ∧
    (add_event (add_event c s e).2.1 s e).2.1 = (add_event c s e).2.1 ∧
    ((calFind (add_event (add_event c s e).2.1 s e).2.1 d).getD []).count e = 1 := by
  have hfind1 : calFind (if (calFind c d).isSome then c else c ++ [(d, [])]) d
      = some ((calFind c d).getD []) := calFind_if_add c d
  have hstep1 : add_event c s e =
      (Outcome.added s e,
       sortByKey (setVal (if (calFind c d).isSome then c else c ++ [(d, [])]) d
         ((calFind c d).getD [] ++ [e])),
       [saveSnapshot (sortByKey (setVal (if (calFind c d).isSome then c else c ++ [(d, [])]) d
         ((calFind c d).getD [] ++ [e])))]) := by
    simp only [add_event, hp, hfind1, Option.getD_some, if_neg hnotin]
  have hnd1 : (calKeys (if (calFind c d).isSome then c else c ++ [(d, [])])).Nodup :=
    c1_keys_nodup d hnd
  have hmem1 : d ∈ calKeys (if (calFind c d).isSome then c else c ++ [(d, [])]) := by
    apply calFind_isSome.mp
    rw [hfind1]
    rfl
  have hnd2 : (calKeys (setVal (if (calFind c d).isSome then c else c ++ [(d, [])]) d
      ((calFind c d).getD [] ++ [e]))).Nodup := by
    rw [calKeys_setVal]
    exact hnd1
  have hndC : (calKeys (sortByKey (setVal (if (calFind c d).isSome then c else c ++ [(d, [])]) d
      ((calFind c d).getD [] ++ [e])))).Nodup :=
    ((calKeys_perm (sortByKey_perm _)).nodup_iff).mpr hnd2
  have hfindC : calFind (sortByKey (setVal (if (calFind c d).isSome then c else c ++ [(d, [])]) d
      ((calFind c d).getD [] ++ [e]))) d = some ((calFind c d).getD [] ++ [e]) := by
    rw [calFind_perm hndC (sortByKey_perm _) d]
    exact calFind_setVal_self _ hmem1
  have hstate1 : (add_event c s e).2.1 =
      sortByKey (setVal (if (calFind c d).isSome then c else c ++ [(d, [])]) d
        ((calFind c d).getD [] ++ [e])) := by
    rw [hstep1]
  have hin2 : e ∈ (calFind c d).getD [] ++ [e] :=
    List.mem_append.mpr (Or.inr (List.mem_singleton.mpr rfl))
  have hstep2 : add_event (sortByKey (setVal (if (calFind c d).isSome then c
      else c ++ [(d, [])]) d ((calFind c d).getD [] ++ [e]))) s e =
      (Outcome.duplicate s e,
       sortByKey (setVal (if (calFind c d).isSome then c else c ++ [(d, [])]) d
         ((calFind c d).getD [] ++ [e])), []) := by
    simp only [add_event, hp, hfindC, Option.isSome_some, if_true, Option.getD_some,
      if_pos hin2]
  refine ⟨?_, ?_, ?_, ?_⟩
  · rw [hstep1]
  · rw [hstate1, hstep2]
  · rw [hstate1, hstep2, prodSnd_mk, prodFst_mk]
  · rw [hstate1, hstep2]
    show ((calFind (sortByKey (setVal (if (calFind c d).isSome then c else c ++ [(d, [])]) d
      ((calFind c d).getD [] ++ [e]))) d).getD []).count e = 1
    rw [hfindC]
    show (((calFind c d).getD [] ++ [e])).count e = 1
    rw [List.count_append]
    have h1 : ([e] : List String).count e = 1 := by simp
    have hz : ((calFind c d).getD []).count e = 0 := List.count_eq_zero.mpr hnotin
    omega

theorem claim_C1_witness :
    parseDate ("2024-01-01") = some ⟨2024, 1, 1⟩ ∧
    (calKeys ([] : Calendar)).Nodup ∧
    ("topic" ∉ (calFind [] ⟨2024, 1, 1⟩).getD []) ∧
    ((add_event [] ("2024-01-01") ("topic")).1 = Outcome.added ("2024-01-01") ("topic") ∧
     (add_event (add_event [] ("2024-01-01") ("topic")).2.1 ("2024-01-01") ("topic")).1 =
       Outcome.duplicate ("2024-01-01") ("topic") ∧
     (add_event (add_event [] ("2024-01-01") ("topic")).2.1 ("2024-01-01") ("topic")).2.1 =
       (add_event [] ("2024-01-01") ("topic")).2.1 ∧
     ((calFind (add_event (add_event [] ("2024-01-01") ("topic")).2.1 ("2024-01-01")
        ("topic")).2.1 ⟨2024, 1, 1⟩).getD []).count ("topic") = 1) :=
  ⟨by decide, by decide, by decide,
   claim_C1 ("2024-01-01") ("topic") [] ⟨2024, 1, 1⟩ (by decide) (by decide) (by decide)⟩

theorem schedDates_zero (base : Nat) (endD : Date) (gap : Nat) (cur : Date) :
    schedDates base endD 0 gap cur = [] := rfl

theorem schedDates_cons {endD cur : Date} (base fuel gap : Nat) (h : Date.le cur endD) :
    schedDates base endD (fuel + 1) gap cur =
      cur :: schedDates base endD fuel (gap * base) (addDays gap cur) := by
  rw [schedDates, if_pos h]

theorem schedDates_nil {endD cur : Date} (base fuel gap : Nat) (h : ¬ Date.le cur endD) :
    schedDates base endD (fuel + 1) gap cur = [] := by
  rw [schedDates, if_neg h]

theorem schedLoop_cons {endD cur : Date} (base : Nat) (e : String) (fuel gap : Nat)
    (c : Calendar) (h : Date.le cur endD) :
    schedLoop base endD e (fuel + 1) gap cur c =
      ((add_event c (isoformat cur) e).1 ::
        (schedLoop base endD e fuel (gap * base) (addDays gap cur)
          (add_event c (isoformat cur) e).2.1).1,
       (schedLoop base endD e fuel (gap * base) (addDays gap cur)
          (add_event c (isoformat cur) e).2.1).2.1,
       (add_event c (isoformat cur) e).2.2 ++
        (schedLoop base endD e fuel (gap * base) (addDays gap cur)
          (add_event c (isoformat cur) e).2.1).2.2) := by
  simp only [schedLoop, if_pos h]

theorem schedLoop_nil {endD cur : Date} (base : Nat) (e : String) (fuel gap : Nat)
    (c : Calendar) (h : ¬ Date.le cur endD) :
    schedLoop base endD e (fuel + 1) gap cur c = ([], c, []) := by
  rw [schedLoop, if_neg h]

theorem schedLoop_length (base : Nat) (endD : Date) (e : String) :
    ∀ fuel gap cur c, (schedLoop base endD e fuel gap cur c).1.length =
      (schedDates base endD fuel gap cur).length := by
  intro fuel
  induction fuel with
  | zero => intro gap cur c; rfl
  | succ k ih =>
    intro gap cur c
    by_cases hc : Date.le cur endD
    · rw [schedLoop_cons base e k gap c hc, schedDates_cons base k gap hc, prodFst_mk,
        List.length_cons, List.length_cons, ih]
    · rw [schedLoop_nil base e k gap c hc, schedDates_nil base k gap hc]
      rfl

theorem schedDates_chain (base : Nat) (endD : Date) (hbase : 1 ≤ base) (_hendv : endD.Valid) :
    ∀ fuel gap cur, 1 ≤ gap → cur.Valid →
      List.Chain' Date.lt (schedDates base endD fuel gap cur) := by
  intro fuel
  induction fuel with
  | zero =>
    intro gap cur _ _
    rw [schedDates_zero]
    exact List.chain'_nil
  | succ k ih =>
    intro gap cur hgap hcv
    by_cases hc : Date.le cur endD
    · rw [schedDates_cons base k gap hc]
      rw [List.chain'_cons']
      constructor
      · intro b hb
        have hb2 : b = addDays gap cur := by
          cases k with
          | zero =>
            rw [schedDates_zero] at hb
            simp at hb
          | succ k2 =>
            by_cases hc2 : Date.le (addDays gap cur) endD
            · rw [schedDates_cons base k2 (gap * base) hc2] at hb
              simp at hb
              exact hb.symm
            · rw [schedDates_nil base k2 (gap * base) hc2] at hb
              simp at hb
        subst hb2
        have hv2 : (addDays gap cur).Valid := valid_addDays gap cur hcv
        rw [toOrd_lt_iff hcv hv2, toOrd_addDays gap cur hcv]
        omega
      · exact ih (gap * base) (addDays gap cur) (Nat.mul_pos hgap hbase)
          (valid_addDays gap cur hcv)
    · rw [schedDates_nil base k gap hc]
      exact List.chain'_nil

theorem schedDates_len (base : Nat) (endD : Date) (hbase : 1 ≤ base) (hendv : endD.Valid) :
    ∀ fuel gap cur, 1 ≤ gap → cur.Valid →
      (schedDates base endD fuel gap cur).length ≤ toOrd endD + 1 - toOrd cur := by
  intro fuel
  induction fuel with
  | zero =>
    intro gap cur _ _
    rw [schedDates_zero]
    simp
  | succ k ih =>
    intro gap cur hgap hcv
    by_cases hc : Date.le cur endD
    · rw [schedDates_cons base k gap hc, List.length_cons]
      have hcur : toOrd cur ≤ toOrd endD := (toOrd_le_iff hcv hendv).mp hc
      have hnext : toOrd (addDays gap cur) = toOrd cur + gap := toOrd_addDays gap cur hcv
      have := ih (gap * base) (addDays gap cur) (Nat.mul_pos hgap hbase)
        (valid_addDays gap cur hcv)
      rw [hnext] at this
      omega
    · rw [schedDates_nil base k gap hc]
      simp

theorem schedDates_fuel_stable (base : Nat) (endD : Date) (hbase : 1 ≤ base)
    (hendv : endD.Valid) :
    ∀ fuel gap cur extra, 1 ≤ gap → cur.Valid → toOrd endD + 1 ≤ toOrd cur + fuel →
      schedDates base endD (fuel + extra) gap cur = schedDates base endD fuel gap cur := by
  intro fuel
  induction fuel with
  | zero =>
    intro gap cur extra hgap hcv hbnd
    have hnc : ¬ Date.le cur endD := by
      intro hle
      rw [toOrd_le_iff hcv hendv] at hle
      omega
    rw [Nat.zero_add]
    cases extra with
    | zero => rfl
    | succ k2 => rw [schedDates_nil base k2 gap hnc, schedDates_zero]
  | succ k ih =>
    intro gap cur extra hgap hcv hbnd
    by_cases hc : Date.le cur endD
    · have he : k + 1 + extra = (k + extra) + 1 := by omega
      rw [he, schedDates_cons base (k + extra) gap hc, schedDates_cons base k gap hc]
      rw [ih (gap * base) (addDays gap cur) extra (Nat.mul_pos hgap hbase)
        (valid_addDays gap cur hcv) (by rw [toOrd_addDays gap cur hcv]; omega)]
    · have he : k + 1 + extra = (k + extra) + 1 := by omega
      rw [he, schedDates_nil base (k + extra) gap hc, schedDates_nil base k gap hc]

theorem toOrd_endDate (start : Date) (hv : start.Valid) :
    toOrd (endDate start) = toOrd start + 365 * 30 := by
  show toOrd (addDays (365 * 30) start) = toOrd start + 365 * 30
  exact toOrd_addDays (365 * 30) start hv

theorem valid_endDate (start : Date) (hv : start.Valid) : (endDate start).Valid :=
  valid_addDays (365 * 30) start hv

/-- `2024-01-01 + 10950 days` is `2053-12-24` (365·30 days fall 8 leap days
short of 30 calendar years over 2024–2054). -/
theorem endDate_2024 : endDate ⟨2024, 1, 1⟩ = ⟨2053, 12, 24⟩ := by
  have hv : (⟨2024, 1, 1⟩ : Date).Valid := by decide
  apply toOrd_inj (valid_endDate ⟨2024, 1, 1⟩ hv) (by decide)
  rw [toOrd_endDate ⟨2024, 1, 1⟩ hv]
  decide

theorem schedDatesQ_zero (base : ℚ) (endD : Date) (gap : ℚ) (cur : Date) :
    schedDatesQ base endD 0 gap cur = [] := rfl

theorem schedDatesQ_cons {endD cur : Date} (base : ℚ) (fuel : Nat) (gap : ℚ)
    (h : Date.le cur endD) :
    schedDatesQ base endD (fuel + 1) gap cur =
      cur :: schedDatesQ base endD fuel (gap * base) (addDays (Int.toNat ⌊gap⌋) cur) := by
  rw [schedDatesQ, if_pos h]

theorem schedDatesQ_nil {endD cur : Date} (base : ℚ) (fuel : Nat) (gap : ℚ)
    (h : ¬ Date.le cur endD) :
    schedDatesQ base endD (fuel + 1) gap cur = [] := by
  rw [schedDatesQ, if_neg h]

/-- A running gap `≥ 1` always advances the date by at least one day:
`timedelta(days=gap).days = ⌊gap⌋ ≥ 1`. -/
theorem floorStep_pos {gap : ℚ} (hgap : 1 ≤ gap) : 1 ≤ Int.toNat ⌊gap⌋ := by
  have h1 : (1 : ℤ) ≤ ⌊gap⌋ := Int.le_floor.mpr (by exact_mod_cast hgap)
  omega

/-- Multiplying a gap `≥ 1` by a growth factor `≥ 1` keeps it `≥ 1`. -/
theorem one_le_gap_mul {gap base : ℚ} (hgap : 1 ≤ gap) (hbase : 1 ≤ base) :
    1 ≤ gap * base := by
  nlinarith

theorem schedDatesQ_chain (base : ℚ) (endD : Date) (hbase : 1 ≤ base) :
    ∀ fuel (gap : ℚ) cur, 1 ≤ gap → cur.Valid →
      List.Chain' Date.lt (schedDatesQ base endD fuel gap cur) := by
  intro fuel
  induction fuel with
  | zero =>
    intro gap cur _ _
    rw [schedDatesQ_zero]
    exact List.chain'_nil
  | succ k ih =>
    intro gap cur hgap hcv
    by_cases hc : Date.le cur endD
    · rw [schedDatesQ_cons base k gap hc]
      rw [List.chain'_cons']
      constructor
      · intro b hb
        have hb2 : b = addDays (Int.toNat ⌊gap⌋) cur := by
          cases k with
          | zero =>
            rw [schedDatesQ_zero] at hb
            simp at hb
          | succ k2 =>
            by_cases hc2 : Date.le (addDays (Int.toNat ⌊gap⌋) cur) endD
            · rw [schedDatesQ_cons base k2 (gap * base) hc2] at hb
              simp at hb
              exact hb.symm
            · rw [schedDatesQ_nil base k2 (gap * base) hc2] at hb
              simp at hb
        subst hb2
        have hv2 : (addDays (Int.toNat ⌊gap⌋) cur).Valid :=
          valid_addDays (Int.toNat ⌊gap⌋) cur hcv
        rw [toOrd_lt_iff hcv hv2, toOrd_addDays (Int.toNat ⌊gap⌋) cur hcv]
        have := floorStep_pos hgap
        omega
      · exact ih (gap * base) (addDays (Int.toNat ⌊gap⌋) cur)
          (one_le_gap_mul hgap hbase) (valid_addDays (Int.toNat ⌊gap⌋) cur hcv)
    · rw [schedDatesQ_nil base k gap hc]
      exact List.chain'_nil

theorem schedDatesQ_len (base : ℚ) (endD : Date) (hbase : 1 ≤ base) (hendv : endD.Valid) :
    ∀ fuel (gap : ℚ) cur, 1 ≤ gap → cur.Valid →
      (schedDatesQ base endD fuel gap cur).length ≤ toOrd endD + 1 - toOrd cur := by
  intro fuel
  induction fuel with
  | zero =>
    intro gap cur _ _
    rw [schedDatesQ_zero]
    simp
  | succ k ih =>
    intro gap cur hgap hcv
    by_cases hc : Date.le cur endD
    · rw [schedDatesQ_cons base k gap hc, List.length_cons]
      have hcur : toOrd cur ≤ toOrd endD := (toOrd_le_iff hcv hendv).mp hc
      have hnext : toOrd (addDays (Int.toNat ⌊gap⌋) cur) = toOrd cur + Int.toNat ⌊gap⌋ :=
        toOrd_addDays (Int.toNat ⌊gap⌋) cur hcv
      have hstep := floorStep_pos hgap
      have := ih (gap * base) (addDays (Int.toNat ⌊gap⌋) cur)
        (one_le_gap_mul hgap hbase) (valid_addDays (Int.toNat ⌊gap⌋) cur hcv)
      rw [hnext] at this
      omega
    · rw [schedDatesQ_nil base k gap hc]
      simp

theorem schedDatesQ_fuel_stable (base : ℚ) (endD : Date) (hbase : 1 ≤ base)
    (hendv : endD.Valid) :
    ∀ fuel (gap : ℚ) cur extra, 1 ≤ gap → cur.Valid → toOrd endD + 1 ≤ toOrd cur + fuel →
      schedDatesQ base endD (fuel + extra) gap cur = schedDatesQ base endD fuel gap cur := by
  intro fuel
  induction fuel with
  | zero =>
    intro gap cur extra hgap hcv hbnd
    have hnc : ¬ Date.le cur endD := by
      intro hle
      rw [toOrd_le_iff hcv hendv] at hle
      omega
    rw [Nat.zero_add]
    cases extra with
    | zero => rfl
    | succ k2 => rw [schedDatesQ_nil base k2 gap hnc, schedDatesQ_zero]
  | succ k ih =>
    intro gap cur extra hgap hcv hbnd
    by_cases hc : Date.le cur endD
    · have he : k + 1 + extra = (k + extra) + 1 := by omega
      rw [he, schedDatesQ_cons base (k + extra) gap hc, schedDatesQ_cons base k gap hc]
      have hstep := floorStep_pos hgap
      rw [ih (gap * base) (addDays (Int.toNat ⌊gap⌋) cur) extra
        (one_le_gap_mul hgap hbase) (valid_addDays (Int.toNat ⌊gap⌋) cur hcv)
        (by rw [toOrd_addDays (Int.toNat ⌊gap⌋) cur hcv]; omega)]
    · have he : k + 1 + extra = (k + extra) + 1 := by omega
      rw [he, schedDatesQ_nil base (k + extra) gap hc, schedDatesQ_nil base k gap hc]

/-- For an integer growth factor the rational-gap loop is exactly the
integer-gap loop: every running gap stays an integer and each floor is
exact, so `add_multiple`'s integer runs are the `base : ℚ` loop restricted
to integral bases. -/
theorem schedDatesQ_natCast (base : Nat) (endD : Date) :
    ∀ fuel (gap : Nat) (cur : Date),
      schedDatesQ (base : ℚ) endD fuel (gap : ℚ) cur = schedDates base endD fuel gap cur := by
  intro fuel
  induction fuel with
  | zero => intro gap cur; rfl
  | succ k ih =>
    intro gap cur
    by_cases hc : Date.le cur endD
    · rw [schedDatesQ_cons (base : ℚ) k (gap : ℚ) hc, schedDates_cons base k gap hc]
      have hfloor : Int.toNat ⌊(gap : ℚ)⌋ = gap := by
        rw [Int.floor_natCast]
        omega
      have hmul : ((gap : ℚ)) * ((base : ℚ)) = ((gap * base : Nat) : ℚ) := by
        push_cast
        ring
      rw [hfloor, hmul, ih (gap * base) (addDays gap cur)]
    · rw [schedDatesQ_nil (base : ℚ) k (gap : ℚ) hc, schedDates_nil base k gap hc]

/-- Claim C8: for every growth factor `≥ 1` — integral or fractional, each
step advancing by the floor of the exactly-accumulated running gap — and
every valid start date, the scheduling loop terminates by its own
condition (its visited-date sequence is unaffected by any extra fuel), the
visited dates are strictly increasing, and the number of iterations is
bounded by the `10951` days of the horizon. -/
theorem claim_C8 (base : ℚ) (start : Date) (hbase : 1 ≤ base) (hv : start.Valid) :
    (∀ extra, schedDatesQ base (endDate start) (FUEL + extra) 1 start =
      schedDatesQ base (endDate start) FUEL 1 start) ∧
    List.Chain' Date.lt (schedDatesQ base (endDate start) FUEL 1 start) ∧
    (schedDatesQ base (endDate start) FUEL 1 start).length ≤ 365 * 30 + 1 := by
  have hev : (endDate start).Valid := valid_endDate start hv
  have hord : toOrd (endDate start) = toOrd start + 365 * 30 := toOrd_endDate start hv
  refine ⟨?_, ?_, ?_⟩
  · intro extra
    refine schedDatesQ_fuel_stable base (endDate start) hbase hev FUEL 1 start extra
      (le_refl 1) hv ?_
    rw [hord, show FUEL = 10952 from rfl]
    omega
  · exact schedDatesQ_chain base (endDate start) hbase FUEL 1 start (le_refl 1) hv
  · have := schedDatesQ_len base (endDate start) hbase hev FUEL 1 start (le_refl 1) hv
    rw [hord] at this
    omega

theorem claim_C8_witness :
    (1 : ℚ) ≤ 3 / 2 ∧ (⟨2024, 1, 1⟩ : Date).Valid ∧
    ((∀ extra, schedDatesQ (3 / 2) (endDate ⟨2024, 1, 1⟩) (FUEL + extra) 1 ⟨2024, 1, 1⟩ =
       schedDatesQ (3 / 2) (endDate ⟨2024, 1, 1⟩) FUEL 1 ⟨2024, 1, 1⟩) ∧
     List.Chain' Date.lt (schedDatesQ (3 / 2) (endDate ⟨2024, 1, 1⟩) FUEL 1 ⟨2024, 1, 1⟩) ∧
     (schedDatesQ (3 / 2) (endDate ⟨2024, 1, 1⟩) FUEL 1 ⟨2024, 1, 1⟩).length ≤ 365 * 30 + 1) :=
  ⟨by norm_num, by decide, claim_C8 (3 / 2) ⟨2024, 1, 1⟩ (by norm_num) (by decide)⟩

/-- Claim C2 counterexample: the run's inclusive upper bound for start date
2024-01-01 is `2053-12-24`, not `2054-01-01` — the code adds `365 * 30`
days, which is 8 leap days short of 30 calendar years. -/
theorem claim_C2_counterexample :
    endDate ⟨2024, 1, 1⟩ = ⟨2053, 12, 24⟩ ∧ endDate ⟨2024, 1, 1⟩ ≠ ⟨2054, 1, 1⟩ := by
  refine ⟨endDate_2024, ?_⟩
  rw [endDate_2024]
  decide

theorem schedDates_base_one (endD : Date) (hendv : endD.Valid) :
    ∀ n fuel cur, cur.Valid → toOrd endD + 1 = toOrd cur + n → n ≤ fuel →
      schedDates 1 endD fuel 1 cur = (List.range n).map (fun k => addDays k cur) := by
  intro n
  induction n with
  | zero =>
    intro fuel cur hcv he _
    have hnc : ¬ Date.le cur endD := by
      intro hle
      rw [toOrd_le_iff hcv hendv] at hle
      omega
    cases fuel with
    | zero => rw [schedDates_zero]; rfl
    | succ k => rw [schedDates_nil 1 k 1 hnc]; rfl
  | succ m ih =>
    intro fuel cur hcv he hf
    have hle : Date.le cur endD := by
      rw [toOrd_le_iff hcv hendv]
      omega
    cases fuel with
    | zero => omega
    | succ k =>
      rw [schedDates_cons 1 k 1 hle]
      rw [show (1 * 1 : Nat) = 1 from rfl]
      rw [ih k (addDays 1 cur) (valid_addDays 1 cur hcv)
        (by rw [toOrd_addDays 1 cur hcv]; omega) (by omega)]
      rw [List.range_succ_eq_map, List.map_cons, List.map_map]
      congr 1
      · exact (addDays_zero cur).symm
      · apply List.map_congr_left
        intro k _
        show addDays k (addDays 1 cur) = addDays (k + 1) cur
        rw [addDays_addDays]
        congr 1
        omega

/-- Claim C2 (amended): the scheduling run's inclusive upper bound is the
start date plus `365 * 30 = 10950` days (not 30 calendar years), and for
growth factor 1 the run performs one Add per calendar day from the start
date through that horizon inclusive — `10951` Adds in total. -/
theorem claim_C2_amended (start : Date) (hv : start.Valid) :
    endDate start = addDays (365 * 30) start ∧
    schedDates 1 (endDate start) FUEL 1 start =
      (List.range (365 * 30 + 1)).map (fun k => addDays k start) ∧
    ∀ c e, (schedLoop 1 (endDate start) e FUEL 1 start c).1.length = 365 * 30 + 1 := by
  have hev : (endDate start).Valid := valid_endDate start hv
  have hord : toOrd (endDate start) = toOrd start + 365 * 30 := toOrd_endDate start hv
  have hdense := schedDates_base_one (endDate start) hev (365 * 30 + 1) FUEL start hv
    (by rw [hord]) (by rw [show FUEL = 10952 from rfl]; omega)
  refine ⟨rfl, hdense, ?_⟩
  intro c e
  rw [schedLoop_length 1 (endDate start) e FUEL 1 start c, hdense, List.length_map,
    List.length_range]

theorem claim_C2_amended_witness :
    (⟨2024, 1, 1⟩ : Date).Valid ∧
    (endDate ⟨2024, 1, 1⟩ = addDays (365 * 30) ⟨2024, 1, 1⟩ ∧
     schedDates 1 (endDate ⟨2024, 1, 1⟩) FUEL 1 ⟨2024, 1, 1⟩ =
       (List.range (365 * 30 + 1)).map (fun k => addDays k ⟨2024, 1, 1⟩) ∧
     ∀ c e, (schedLoop 1 (endDate ⟨2024, 1, 1⟩) e FUEL 1 ⟨2024, 1, 1⟩ c).1.length =
       365 * 30 + 1) :=
  ⟨by decide, claim_C2_amended ⟨2024, 1, 1⟩ (by decide)⟩

theorem sched_step (base : Nat) (endD : Date) (fuel gap o : Nat) (d : Date)
    (h : Date.le (addDays o d) endD) :
    schedDates base endD (fuel + 1) gap (addDays o d) =
      addDays o d :: schedDates base endD fuel (gap * base) (addDays (o + gap) d) := by
  rw [schedDates_cons base fuel gap h, addDays_addDays]

theorem outs_outputs (xs : List Outcome) : (MultiResult.outputs xs).outs = xs := rfl

/-- The day offsets at which the growth-factor-2 run from 2024-01-01 issues
its Add calls: offset 0, then each next offset adds the next power of 2,
until the next step would pass the horizon. -/
def c3offsets : List Nat := [0, 1, 3, 7, 15, 31, 63, 127, 255, 511, 1023, 2047, 4095, 8191]

/-- Claim C3: with growth factor 2 from 2024-01-01 the scheduler issues Add
calls exactly at day offsets 0, 1, 3, 7, ..., 8191 (each next offset is the
previous plus the next power of 2), stops at the horizon, and the returned
outcome sequence of `add_multiple` has exactly one entry per issued Add. -/
theorem claim_C3 (today : Date) (c : Calendar) :
    schedDates 2 (endDate ⟨2024, 1, 1⟩) FUEL 1 ⟨2024, 1, 1⟩ =
      c3offsets.map (fun k => addDays k ⟨2024, 1, 1⟩) ∧
    c3offsets.tail = (List.range 13).map (fun i => c3offsets.getD i 0 + 2 ^ i) ∧
    (add_multiple today c ("Review X") 2 (some ("2024-01-01"))).1.outs.length =
      c3offsets.length := by
  have hv24 : (⟨2024, 1, 1⟩ : Date).Valid := by decide
  have hev : (endDate ⟨2024, 1, 1⟩).Valid := valid_endDate _ hv24
  have hord : toOrd (endDate ⟨2024, 1, 1⟩) = toOrd ⟨2024, 1, 1⟩ + 365 * 30 :=
    toOrd_endDate _ hv24
  have hcond : ∀ k : Nat, k ≤ 10950 →
      Date.le (addDays k ⟨2024, 1, 1⟩) (endDate ⟨2024, 1, 1⟩) := by
    intro k hk
    rw [toOrd_le_iff (valid_addDays k _ hv24) hev, toOrd_addDays k _ hv24, hord]
    omega
  have hc0 : Date.le (⟨2024, 1, 1⟩ : Date) (endDate ⟨2024, 1, 1⟩) := by
    rw [toOrd_le_iff hv24 hev, hord]
    omega
  have hnc : ¬ Date.le (addDays 16383 ⟨2024, 1, 1⟩) (endDate ⟨2024, 1, 1⟩) := by
    rw [toOrd_le_iff (valid_addDays 16383 _ hv24) hev, toOrd_addDays 16383 _ hv24, hord]
    omega
  have hmain : schedDates 2 (endDate ⟨2024, 1, 1⟩) FUEL 1 ⟨2024, 1, 1⟩ =
      c3offsets.map (fun k => addDays k ⟨2024, 1, 1⟩) := by
    rw [show FUEL = 10951 + 1 from rfl]
    rw [schedDates_cons 2 10951 1 hc0]
    rw [show (1 * 2 : Nat) = 2 from rfl]
    rw [show (10951 : Nat) = 10950 + 1 from rfl]
    rw [sched_step 2 _ 10950 2 1 _ (hcond 1 (by omega))]
    rw [show (1 + 2 : Nat) = 3 from rfl, show (2 * 2 : Nat) = 4 from rfl]
    rw [show (10950 : Nat) = 10949 + 1 from rfl]
    rw [sched_step 2 _ 10949 4 3 _ (hcond 3 (by omega))]
    rw [show (3 + 4 : Nat) = 7 from rfl, show (4 * 2 : Nat) = 8 from rfl]
    rw [show (10949 : Nat) = 10948 + 1 from rfl]
    rw [sched_step 2 _ 10948 8 7 _ (hcond 7 (by omega))]
    rw [show (7 + 8 : Nat) = 15 from rfl, show (8 * 2 : Nat) = 16 from rfl]
    rw [show (10948 : Nat) = 10947 + 1 from rfl]
    rw [sched_step 2 _ 10947 16 15 _ (hcond 15 (by omega))]
    rw [show (15 + 16 : Nat) = 31 from rfl, show (16 * 2 : Nat) = 32 from rfl]
    rw [show (10947 : Nat) = 10946 + 1 from rfl]
    rw [sched_step 2 _ 10946 32 31 _ (hcond 31 (by omega))]
    rw [show (31 + 32 : Nat) = 63 from rfl, show (32 * 2 : Nat) = 64 from rfl]
    rw [show (10946 : Nat) = 10945 + 1 from rfl]
    rw [sched_step 2 _ 10945 64 63 _ (hcond 63 (by omega))]
    rw [show (63 + 64 : Nat) = 127 from rfl, show (64 * 2 : Nat) = 128 from rfl]
    rw [show (10945 : Nat) = 10944 + 1 from rfl]
    rw [sched_step 2 _ 10944 128 127 _ (hcond 127 (by omega))]
    rw [show (127 + 128 : Nat) = 255 from rfl, show (128 * 2 : Nat) = 256 from rfl]
    rw [show (10944 : Nat) = 10943 + 1 from rfl]
    rw [sched_step 2 _ 10943 256 255 _ (hcond 255 (by omega))]
    rw [show (255 + 256 : Nat) = 511 from rfl, show (256 * 2 : Nat) = 512 from rfl]
    rw [show (10943 : Nat) = 10942 + 1 from rfl]
    rw [sched_step 2 _ 10942 512 511 _ (hcond 511 (by omega))]
    rw [show (511 + 512 : Nat) = 1023 from rfl, show (512 * 2 : Nat) = 1024 from rfl]
    rw [show (10942 : Nat) = 10941 + 1 from rfl]
    rw [sched_step 2 _ 10941 1024 1023 _ (hcond 1023 (by omega))]
    rw [show (1023 + 1024 : Nat) = 2047 from rfl, show (1024 * 2 : Nat) = 2048 from rfl]
    rw [show (10941 : Nat) = 10940 + 1 from rfl]
    rw [sched_step 2 _ 10940 2048 2047 _ (hcond 2047 (by omega))]
    rw [show (2047 + 2048 : Nat) = 4095 from rfl, show (2048 * 2 : Nat) = 4096 from rfl]
    rw [show (10940 : Nat) = 10939 + 1 from rfl]
    rw [sched_step 2 _ 10939 4096 4095 _ (hcond 4095 (by omega))]
    rw [show (4095 + 4096 : Nat) = 8191 from rfl, show (4096 * 2 : Nat) = 8192 from rfl]
    rw [show (10939 : Nat) = 10938 + 1 from rfl]
    rw [sched_step 2 _ 10938 8192 8191 _ (hcond 8191 (by omega))]
    rw [show (8191 + 8192 : Nat) = 16383 from rfl, show (8192 * 2 : Nat) = 16384 from rfl]
    rw [show (10938 : Nat) = 10937 + 1 from rfl]
    rw [schedDates_nil 2 10937 16384 hnc]
    simp only [c3offsets, List.map_cons, List.map_nil, addDays_zero]
  refine ⟨hmain, by decide, ?_⟩
  have hp24 : parseDate ("2024-01-01") = some ⟨2024, 1, 1⟩ := by decide
  have hres : resolveStart today (some ("2024-01-01")) = some ⟨2024, 1, 1⟩ := hp24
  rw [add_multiple_outs_some today c ("Review X") 2 (some ("2024-01-01")) ⟨2024, 1, 1⟩ hres,
    outs_outputs, schedLoop_length 2 (endDate ⟨2024, 1, 1⟩) ("Review X") FUEL 1 ⟨2024, 1, 1⟩ c,
    hmain, List.length_map]

theorem add_event_outcome_kinds (c : Calendar) (s e : String) (d : Date)
    (hp : parseDate s = some d) :
    (add_event c s e).1 = Outcome.added s e ∨ (add_event c s e).1 = Outcome.duplicate s e := by
  simp only [add_event, hp]
  by_cases he : e ∈ ((calFind (if (calFind c d).isSome then c else c ++ [(d, [])]) d).getD [])
  · rw [if_pos he]
    right
    rfl
  · rw [if_neg he]
    left
    rfl

theorem schedLoop_outcomes (base : Nat) (endD : Date) (e : String) (hyr : endD.year ≤ 9999) :
    ∀ fuel gap cur c, cur.Valid →
      ∀ o ∈ (schedLoop base endD e fuel gap cur c).1,
        (∃ a b, o = Outcome.added a b) ∨ (∃ a b, o = Outcome.duplicate a b) := by
  intro fuel
  induction fuel with
  | zero =>
    intro gap cur c _ o ho
    simp [schedLoop] at ho
  | succ k ih =>
    intro gap cur c hcv o ho
    by_cases hc : Date.le cur endD
    · rw [schedLoop_cons base e k gap c hc, prodFst_mk] at ho
      rcases List.mem_cons.mp ho with he | ht
      · have hy9 : cur.year ≤ 9999 := Nat.le_trans (Date.year_le_of_le hc) hyr
        have hiso : parseDate (isoformat cur) = some cur := parseDate_isoformat cur hcv hy9
        rcases add_event_outcome_kinds c (isoformat cur) e cur hiso with hk | hk
        · left
          exact ⟨isoformat cur, e, he.trans hk⟩
        · right
          exact ⟨isoformat cur, e, he.trans hk⟩
      · exact ih (gap * base) (addDays gap cur) (add_event c (isoformat cur) e).2.1
          (valid_addDays gap cur hcv) o ht
    · rw [schedLoop_nil base e k gap c hc] at ho
      simp at ho

/-- Claim C9: whenever `add_multiple` runs with an omitted or valid start
date (whose horizon stays inside the representable year range), every
per-date outcome it collects is an `Added` or a `Duplicate` — the
invalid-date branch of `add_event` is unreachable from the loop, because
each generated date is passed as its own `isoformat` string, which always
re-parses to the same date. -/
theorem claim_C9 (today startD : Date) (c : Calendar) (e : String) (base : Nat)
    (sd : Option String) (hres : resolveStart today sd = some startD)
    (hv : startD.Valid) (hyr : (endDate startD).year ≤ 9999) :
    ∀ o ∈ (add_multiple today c e base sd).1.outs,
      (∃ a b, o = Outcome.added a b) ∨ (∃ a b, o = Outcome.duplicate a b) := by
  intro o ho
  rw [add_multiple_outs_some today c e base sd startD hres, outs_outputs] at ho
  exact schedLoop_outcomes base (endDate startD) e hyr FUEL 1 startD c hv o ho

theorem claim_C9_witness :
    resolveStart ⟨2024, 1, 1⟩ (some ("2024-01-01")) = some ⟨2024, 1, 1⟩ ∧
    (⟨2024, 1, 1⟩ : Date).Valid ∧ (endDate ⟨2024, 1, 1⟩).year ≤ 9999 ∧
    (∀ o ∈ (add_multiple ⟨2024, 1, 1⟩ [] ("topic") 2 (some ("2024-01-01"))).1.outs,
      (∃ a b, o = Outcome.added a b) ∨ (∃ a b, o = Outcome.duplicate a b)) :=
  ⟨by decide, by decide, by rw [endDate_2024]; decide,
   claim_C9 ⟨2024, 1, 1⟩ ⟨2024, 1, 1⟩ [] ("topic") 2 (some ("2024-01-01")) (by decide)
     (by decide) (by rw [endDate_2024]; decide)⟩

theorem iso_inj {a b : Date} (ha : a.Valid) (ha9 : a.year ≤ 9999) (hb : b.Valid)
    (hb9 : b.year ≤ 9999) (h : isoformat a = isoformat b) : a = b := by
  have h1 := parseDate_isoformat a ha ha9
  have h2 := parseDate_isoformat b hb hb9
  rw [h] at h1
  rw [h2] at h1
  exact (Option.some.inj h1).symm

theorem save_keys (c : Calendar) :
    (saveSnapshot c).map Prod.fst = (calKeys c).map isoformat := by
  unfold saveSnapshot calKeys
  rw [List.map_map, List.map_map]
  rfl

theorem parsedKeys_iso :
    ∀ ds : List Date, (∀ d ∈ ds, d.Valid ∧ d.year ≤ 9999) →
      parsedKeys (ds.map isoformat) = some ds := by
  intro ds
  induction ds with
  | nil => intro _; rfl
  | cons d rest ih =>
    intro hval
    have hd := hval d (List.mem_cons_self d rest)
    rw [List.map_cons]
    simp only [parsedKeys, parseDate_isoformat d hd.1 hd.2,
      ih (fun x hx => hval x (List.mem_cons_of_mem d hx))]

theorem sortDates_sorted_id (l : List Date) (h : List.Pairwise Date.le l) :
    sortDates l = l :=
  List.Sorted.insertionSort_eq h

theorem lookupStr_save :
    ∀ c : Calendar, (calKeys c).Nodup →
      (∀ k ∈ calKeys c, k.Valid ∧ k.year ≤ 9999) →
      ∀ d : Date, ∀ v : EventList, d.Valid → d.year ≤ 9999 → (d, v) ∈ c →
      lookupStr (saveSnapshot c) (isoformat d) = some v := by
  intro c
  induction c with
  | nil =>
    intro _ _ d v _ _ hm
    simp at hm
  | cons p rest ih =>
    intro hnd hval d v hdv hd9 hm
    have hndt : (calKeys rest).Nodup := by
      rw [calKeys, List.map_cons, List.nodup_cons] at hnd
      exact hnd.2
    have hpv := hval p.1 (by rw [calKeys, List.map_cons]; exact List.mem_cons_self _ _)
    rcases List.mem_cons.mp hm with he | ht
    · have hfst : p.1 = d := by rw [← he]
      have hsnd : p.2 = v := by rw [← he]
      show (List.find? (fun q => q.1 = isoformat d) ((isoformat p.1, p.2) :: saveSnapshot rest)).map Prod.snd = some v
      rw [List.find?_cons_of_pos _ (by simp [hfst])]
      rw [hsnd]
      rfl
    · have hfst : p.1 ≠ d := by
        intro he
        have : d ∈ calKeys rest := List.mem_map.mpr ⟨(d, v), ht, rfl⟩
        rw [calKeys, List.map_cons, List.nodup_cons] at hnd
        exact hnd.1 (he ▸ this)
      have hiso : isoformat p.1 ≠ isoformat d := by
        intro he
        exact hfst (iso_inj hpv.1 hpv.2 hdv hd9 he)
      show (List.find? (fun q => q.1 = isoformat d) ((isoformat p.1, p.2) :: saveSnapshot rest)).map Prod.snd = some v
      rw [List.find?_cons_of_neg _ (by simp [hiso])]
      exact ih hndt
        (fun k hk => hval k (by rw [calKeys, List.map_cons]; exact List.mem_cons_of_mem _ hk))
        d v hdv hd9 ht

theorem buildCalendar_save (c : Calendar) (hgood : GoodCal c) :
    ∀ c2 acc, c = acc ++ c2 → buildCalendar (saveSnapshot c) (calKeys c2) acc = some c := by
  obtain ⟨hsort, hval⟩ := hgood
  have hnd := pairwise_keys_nodup hsort
  intro c2
  induction c2 with
  | nil =>
    intro acc he
    rw [List.append_nil] at he
    subst he
    rfl
  | cons p c2' ih =>
    intro acc he
    have hpm : (p.1, p.2) ∈ c := by
      rw [he]
      exact List.mem_append.mpr (Or.inr (List.mem_cons_self p c2'))
    have hpv := hval p.1 (List.mem_map.mpr ⟨(p.1, p.2), hpm, rfl⟩)
    have hkeys : calKeys c = calKeys acc ++ p.1 :: calKeys c2' := by
      rw [he, calKeys_append]
      rfl
    have hnotin : p.1 ∉ calKeys acc := by
      rw [hkeys] at hnd
      rcases List.nodup_append.mp hnd with ⟨_, _, hdisj⟩
      intro hmem
      exact hdisj hmem (List.mem_cons_self _ _)
    show buildCalendar (saveSnapshot c) (p.1 :: calKeys c2') acc = some c
    have hlook : lookupStr (saveSnapshot c) (isoformat p.1) = some p.2 :=
      lookupStr_save c hnd hval p.1 p.2 hpv.1 hpv.2 hpm
    simp only [buildCalendar, hlook]
    have hod : odInsert acc p.1 p.2 = acc ++ [p] := by
      unfold odInsert
      rw [if_neg (by simp [calFind_eq_none.mpr hnotin])]
    rw [hod]
    exact ih (acc ++ [p]) (by rw [he, List.append_assoc]; rfl)

/-- Claim C7: saving any reachable calendar state and loading it back gives
the identical mapping: the same dates in the same order, with the same
event list for each date. -/
theorem claim_C7 (c : Calendar) (h : Reach c) :
    load_calendar_db (saveSnapshot c) = some c := by
  have hg := reach_good h
  obtain ⟨hsort, hval⟩ := hg
  have h1 : parsedKeys ((saveSnapshot c).map Prod.fst) = some (calKeys c) := by
    rw [save_keys]
    exact parsedKeys_iso (calKeys c) hval
  have h2 : sortDates (calKeys c) = calKeys c :=
    sortDates_sorted_id (calKeys c) (hsort.imp (fun hlt => Or.inl hlt))
  simp only [load_calendar_db, h1, h2]
  exact buildCalendar_save c ⟨hsort, hval⟩ c [] rfl

theorem claim_C7_witness : load_calendar_db (saveSnapshot sampleCal) = some sampleCal :=
  claim_C7 sampleCal (Reach.loaded sampleFile sampleCal (by decide))
